import Mathlib

/-!
Verification of the printer-usage report core (HTML report parser, period
aggregator, identity reconciliation) of the `printer_usage` repository.

The TypeScript source is shallowly embedded:
* JS `number` counters are modelled as `Int` (every counter in the program is
  produced by `parseIntSafe`, which yields an integer or `0`; floating-point
  rounding beyond `Number.MAX_SAFE_INTEGER` is not modelled).
* JS objects used as string-keyed records (`Record<UserKey, UserData>`) are
  modelled as association lists in insertion order, which is how JS enumerates
  them (`Object.entries`/`Object.keys`); lookup finds the first entry,
  assignment replaces the first entry or appends.
* The DOM is modelled as the table structure the parser navigates: a document
  is a list of row-parents (`tbody`-like elements), each a list of `tr` rows;
  a row carries its class tags, its full text and the trimmed text of its
  `td` cells.  `document.querySelectorAll('tr')` is the join of the parents'
  rows in document order.
* `aggregateUsersForSelected` mutates JS heap objects through shared
  references (`{ ...printerUsage }` copies an object shallowly, sharing its
  `totals` object), so it is embedded with an explicit heap of `Totals`
  cells addressed by `Ref = Nat`; reads and writes go through the heap.
-/

/-- The additive counter record (`type Totals`, src/unnamed/part_000:58-72).
All 13 counters of the source, in source order. -/
structure Totals where
  mono : Int
  color : Int
  blank : Int
  total : Int
  adobePdf : Int
  copy : Int
  msExcel : Int
  msPowerPoint : Int
  msWord : Int
  simplex : Int
  duplex : Int
  otherApplication : Int
  print : Int
deriving Repr, DecidableEq

/-- The all-zero counter record, as written out literally at
src/unnamed/part_000:332-346 and several other places. -/
def Totals.zero : Totals := ⟨0, 0, 0, 0, 0, 0, 0, 0, 0, 0, 0, 0, 0⟩

/-- Field-wise addition of counter records.  This is the `+=` loop over
`TOTAL_KEYS` (src/unnamed/part_000:104-106) and the 13 per-field `+=`
statements of the parser and aggregator. -/
def Totals.add (a b : Totals) : Totals :=
  ⟨a.mono + b.mono, a.color + b.color, a.blank + b.blank, a.total + b.total,
   a.adobePdf + b.adobePdf, a.copy + b.copy, a.msExcel + b.msExcel,
   a.msPowerPoint + b.msPowerPoint, a.msWord + b.msWord,
   a.simplex + b.simplex, a.duplex + b.duplex,
   a.otherApplication + b.otherApplication, a.print + b.print⟩

theorem Totals.add_zero_left (a : Totals) : Totals.add Totals.zero a = a := by
  cases a; simp [Totals.add, Totals.zero]

theorem Totals.add_zero_right (a : Totals) : Totals.add a Totals.zero = a := by
  cases a; simp [Totals.add, Totals.zero]

theorem Totals.add_comm_law (a b : Totals) : Totals.add a b = Totals.add b a := by
  cases a; cases b; simp only [Totals.add, Totals.mk.injEq]; omega

theorem Totals.add_assoc_law (a b c : Totals) :
    Totals.add (Totals.add a b) c = Totals.add a (Totals.add b c) := by
  cases a; cases b; cases c; simp only [Totals.add, Totals.mk.injEq]; omega

/-- The `zod` schema check `totalsSchema` (src/unnamed/part_000:139-153):
all 13 counters non-negative.  (`finite()` always holds for the integers
`parseIntSafe` produces, so it needs no separate model.) -/
def totalsOk (t : Totals) : Bool :=
  decide (0 ≤ t.mono) && decide (0 ≤ t.color) && decide (0 ≤ t.blank) &&
  decide (0 ≤ t.total) && decide (0 ≤ t.adobePdf) && decide (0 ≤ t.copy) &&
  decide (0 ≤ t.msExcel) && decide (0 ≤ t.msPowerPoint) &&
  decide (0 ≤ t.msWord) && decide (0 ≤ t.simplex) && decide (0 ≤ t.duplex) &&
  decide (0 ≤ t.otherApplication) && decide (0 ≤ t.print)

/-! ### String helpers

The parser compares strings case-insensitively (`/user/i`,
`.toLowerCase().includes('total')`) and trims user input.  The inputs are
ASCII, so ASCII case folding models `toLowerCase` on them. -/

/-- ASCII lower-casing of one character. -/
def asciiLower (c : Char) : Char :=
  if 'A' ≤ c && c ≤ 'Z' then Char.ofNat (c.toNat + 32) else c

/-- Lower-cased character list of a string. -/
def lowerChars (s : String) : List Char := s.data.map asciiLower

/-- Executable prefix test on character lists. -/
def chPrefix : List Char → List Char → Bool
  | [], _ => true
  | _ :: _, [] => false
  | a :: as, b :: bs => a == b && chPrefix as bs

/-- Executable infix (substring) test on character lists. -/
def chInfix (pat : List Char) : List Char → Bool
  | [] => chPrefix pat []
  | b :: bs => chPrefix pat (b :: bs) || chInfix pat bs

/-- Test `/user/i.test(s)`: does `s` contain `"user"` case-insensitively? -/
def containsUserCI (s : String) : Bool := chInfix "user".data (lowerChars s)

/-- Test `s.toLowerCase().includes('total')`. -/
def containsTotalCI (s : String) : Bool := chInfix "total".data (lowerChars s)

/-- JS whitespace for `String.prototype.trim` (ASCII part). -/
def isJsWS (c : Char) : Bool := c = ' ' || c = '\t' || c = '\n' || c = '\r'

/-- Model of `s.trim()`. -/
def jsTrim (s : String) : String :=
  ⟨((s.data.dropWhile isJsWS).reverse.dropWhile isJsWS).reverse⟩

/-! ### `parseIntSafe` (src/unnamed/part_000:168-171)

`v.replace(/[^\d-]/g, '')` keeps digits and every `-`; `Number.parseInt`
then reads an optional sign followed by the longest digit prefix and is
`NaN` when no digit is read, in which case the function returns `0`. -/

/-- The digit prefix of a character list. -/
def digitPrefix (cs : List Char) : List Char := cs.takeWhile (·.isDigit)

/-- Numeric value of a digit list (most significant first). -/
def digitsToNat (cs : List Char) : Nat :=
  cs.foldl (fun a c => 10 * a + (c.toNat - 48)) 0

/-- Model of `Number.parseInt(s, 10)` on a string that contains only digits and `-`:
`none` models `NaN`. -/
def jsParseIntStripped : List Char → Option Int
  | '-' :: rest =>
      if (digitPrefix rest).isEmpty then none
      else some (-(digitsToNat (digitPrefix rest) : Int))
  | cs =>
      if (digitPrefix cs).isEmpty then none
      else some (digitsToNat (digitPrefix cs))

/-- Source `parseIntSafe` (src/unnamed/part_000:168-171). -/
def parseIntSafe (s : String) : Int :=
  match jsParseIntStripped (s.data.filter (fun c => c.isDigit || c == '-')) with
  | none => 0
  | some n => n

example : parseIntSafe "1,234" = 1234 := by decide
example : parseIntSafe "-5" = -5 := by decide
example : parseIntSafe "" = 0 := by decide
example : parseIntSafe "abc" = 0 := by decide

/-! ### Value-world data model (src/unnamed/part_000:90-130) -/

/-- Source `type PrinterUsage` (src/unnamed/part_000:90-95). -/
structure PrinterUsage where
  deviceModel : String
  ipHostname : String
  ipAddress : String
  totals : Totals
deriving Repr, DecidableEq

/-- Source `type UserData` (src/unnamed/part_000:97-100). -/
structure UserData where
  totals : Totals
  printerUsage : List PrinterUsage
deriving Repr, DecidableEq

/-- Source `mergeUserData` (src/unnamed/part_000:102-111): counters summed over
`TOTAL_KEYS`, `printerUsage` lists concatenated. -/
def mergeUserData (target source : UserData) : UserData :=
  { totals := target.totals.add source.totals
    printerUsage := target.printerUsage ++ source.printerUsage }

/-- Model of `Record<UserKey, UserData>` in JS key-insertion order. -/
abbrev UsersMap := List (String × UserData)

/-- JS object property read `m[k]`. -/
def lookupUser : UsersMap → String → Option UserData
  | [], _ => none
  | (k, v) :: rest, key => if k = key then some v else lookupUser rest key

/-- JS object property write `m[k] = v`: replaces the entry in place when the
key exists, appends otherwise. -/
def setUser : UsersMap → String → UserData → UsersMap
  | [], key, v => [(key, v)]
  | (k, w) :: rest, key, v =>
      if k = key then (k, v) :: rest else (k, w) :: setUser rest key v

/-- JS `delete m[k]`: the key is removed.  A JS object never holds a key
twice, so removing every association-list entry with that key models it. -/
def removeUser : UsersMap → String → UsersMap
  | [], _ => []
  | (k, v) :: rest, key =>
      if k = key then removeUser rest key else (k, v) :: removeUser rest key

/-- Source `type ReportPeriod` (src/unnamed/part_000:121-130); dates are modelled as
epoch timestamps (`Date.getTime()`). -/
structure ReportPeriod where
  id : String
  fileName : String
  dateCreated : Option Int
  rangeStart : Option Int
  rangeEnd : Option Int
  periodLabel : String
  users : UsersMap
  grandTotals : Totals
deriving Repr, DecidableEq

/-! ### DOM model for the parser -/

/-- One `tr` element as the parser observes it: its class tags, whether it
contains an `hr`, its `textContent`, and the trimmed `textContent` of each of
its `td` children (`Array.from(tr.querySelectorAll('td')).map(td =>
td.textContent?.trim() ?? '')`). -/
structure Row where
  isGroupHdr : Bool
  isColumnHdr : Bool
  isTotalsRow : Bool
  hasHr : Bool
  text : String
  cells : List String
deriving Repr, DecidableEq

/-- A document, as navigated by `parseReportHtml`: the `tr` rows grouped by
their parent element, parents in document order.  `querySelectorAll('tr')` on
the document is the join. -/
structure Doc where
  bodies : List (List Row)
deriving Repr, DecidableEq

/-- Model of `doc.querySelectorAll('tr')` in document order. -/
def Doc.allRows (d : Doc) : List Row := d.bodies.flatten

/-- Cell read `cells[i] ?? dflt`: the fallback fires only when the index is
out of range (an empty string is not nullish). -/
def cellD (cells : List String) (i : Nat) (dflt : String) : String :=
  cells.getD i dflt

/-- Fixed-column decode of one usage data row
(src/unnamed/part_000:173-187 `COLUMN_INDEXES` and 392-410).  The `total`
column falls back to `String(mono + color + blank)` only when cell 10 is
missing from the row. -/
def decodeRowTotals (cells : List String) : Totals :=
  let mono := parseIntSafe (cellD cells 7 "0")
  let color := parseIntSafe (cellD cells 8 "0")
  let blank := parseIntSafe (cellD cells 9 "0")
  let total := parseIntSafe (cellD cells 10 (toString (mono + color + blank)))
  let adobePdf := parseIntSafe (cellD cells 13 "0")
  let copy := parseIntSafe (cellD cells 14 "0")
  let msExcel := parseIntSafe (cellD cells 19 "0")
  let msPowerPoint := parseIntSafe (cellD cells 20 "0")
  let msWord := parseIntSafe (cellD cells 21 "0")
  let otherApplication := parseIntSafe (cellD cells 22 "0")
  let print := parseIntSafe (cellD cells 24 "0")
  let simplex := parseIntSafe (cellD cells 27 "0")
  let duplex := parseIntSafe (cellD cells 28 "0")
  ⟨mono, color, blank, total, adobePdf, copy, msExcel, msPowerPoint, msWord,
   simplex, duplex, otherApplication, print⟩

/-- Find-or-create of the `(ipHostname, ipAddress)` entry in a user's
`printerUsage` list followed by the 13 `+=` statements
(src/unnamed/part_000:432-474): the first matching entry accumulates `t`;
when none matches, a fresh zero entry is pushed and accumulates `t`. -/
def addToFirstPU (dm pn ip : String) (t : Totals) :
    List PrinterUsage → List PrinterUsage
  | [] => [⟨dm, pn, ip, Totals.zero.add t⟩]
  | p :: rest =>
      if p.ipHostname = pn ∧ p.ipAddress = ip then
        { p with totals := p.totals.add t } :: rest
      else
        p :: addToFirstPU dm pn ip t rest

/-- Decode and accumulate one retained data row into the current user's data
(src/unnamed/part_000:386-489): rows whose decoded counters fail
`totalsSchema` are dropped. -/
def processRow (ud : UserData) (cells : List String) : UserData :=
  let dm := cellD cells 0 "Unknown Device"
  let pn := cellD cells 1 "Unknown Printer"
  let ip := cellD cells 2 "Unknown IP"
  let t := decodeRowTotals cells
  if totalsOk t then
    { totals := ud.totals.add t
      printerUsage := addToFirstPU dm pn ip t ud.printerUsage }
  else ud

/-- The linear scan from the row after a group header
(src/unnamed/part_000:357-491): stop at the next group header; a column
header arms data collection; `hr` separator rows are skipped; an armed row
with more than 10 `td` cells is a data row unless it is class-tagged
`totals` or its first cell contains `total`. -/
def scanSection (ud : UserData) (foundCol : Bool) : List Row → UserData
  | [] => ud
  | r :: rest =>
      if r.isGroupHdr then ud
      else if r.isColumnHdr then scanSection ud true rest
      else if r.hasHr then scanSection ud foundCol rest
      else if foundCol && decide (10 < r.cells.length) then
        if r.isTotalsRow || containsTotalCI (r.cells.headD "") then
          scanSection ud foundCol rest
        else scanSection (processRow ud r.cells) foundCol rest
      else scanSection ud foundCol rest

/-- The user identity of a section:
`gh.parentElement?.querySelector('tr:nth-of-type(2)')` selects the second
`tr` child of the group header's parent, and the identity is that row's
first `td` text, `"Unknown User"` when row or cell is absent
(src/unnamed/part_000:322-327). -/
def bodyUsername (bodyRows : List Row) : String :=
  match bodyRows.get? 1 with
  | none => "Unknown User"
  | some r =>
      match r.cells.head? with
      | none => "Unknown User"
      | some s => s

/-- The all-zero user record created on first sight of an identity
(src/unnamed/part_000:330-349). -/
def emptyUserData : UserData := ⟨Totals.zero, []⟩

/-- Process the group-header rows of one parent: each `group_hdr` row whose
text contains `user` (case-insensitively) creates/updates the entry keyed by
`bodyUsername` of its parent, scanning all document rows after the header
(`laterRows` are the rows of subsequent parents). -/
def parseRowsInBody (bodyAll laterRows : List Row) :
    UsersMap → List Row → UsersMap
  | m, [] => m
  | m, r :: rest =>
      let m' :=
        if r.isGroupHdr && containsUserCI r.text then
          let uname := bodyUsername bodyAll
          let ud := (lookupUser m uname).getD emptyUserData
          setUser m uname (scanSection ud false (rest ++ laterRows))
        else m
      parseRowsInBody bodyAll laterRows m' rest

/-- Process the parents in document order. -/
def parseBodiesAux : UsersMap → List (List Row) → UsersMap
  | m, [] => m
  | m, b :: bs => parseBodiesAux (parseRowsInBody b bs.flatten m b) bs

/-- The user map built by `parseReportHtml` (src/unnamed/part_000:315-492). -/
def parseReportHtmlUsers (d : Doc) : UsersMap := parseBodiesAux [] d.bodies

/-- Fixed-column decode of the document's grand-totals row
(src/unnamed/part_000:509-530): every column, including `total`, falls back
to `'0'` when missing. -/
def decodeGrandRow (cells : List String) : Totals :=
  ⟨parseIntSafe (cellD cells 7 "0"), parseIntSafe (cellD cells 8 "0"),
   parseIntSafe (cellD cells 9 "0"), parseIntSafe (cellD cells 10 "0"),
   parseIntSafe (cellD cells 13 "0"), parseIntSafe (cellD cells 14 "0"),
   parseIntSafe (cellD cells 19 "0"), parseIntSafe (cellD cells 20 "0"),
   parseIntSafe (cellD cells 21 "0"), parseIntSafe (cellD cells 27 "0"),
   parseIntSafe (cellD cells 28 "0"), parseIntSafe (cellD cells 22 "0"),
   parseIntSafe (cellD cells 24 "0")⟩

/-- Field-wise sum of every user's totals (the `else` accumulation loop at
src/unnamed/part_000:531-548, starting from the zero record). -/
def sumUsersTotals (m : UsersMap) : Totals :=
  m.foldl (fun acc e => acc.add e.2.totals) Totals.zero

/-- Field `grandTotals` of `parseReportHtml` (src/unnamed/part_000:494-548):
decoded from the first `tr.totals` row when one exists, otherwise the
field-wise sum of every user's totals. -/
def parseReportHtmlGrand (d : Doc) : Totals :=
  match d.allRows.find? (fun r => r.isTotalsRow) with
  | some r => decodeGrandRow r.cells
  | none => sumUsersTotals (parseReportHtmlUsers d)

/-! ### `computeAggregated` (src/unnamed/part_000:568-608, duplicated at
src/components/report-viewer.tsx:96-144) -/

/-- The aggregate result type (`type Aggregated`).  Only the fields the
claims are about are carried; `overallRange` is a pair of epoch timestamps. -/
structure Aggregated where
  periods : List ReportPeriod
  overallRange : Option (Int × Int)
  allUsers : List String
  allPrinters : List String
deriving Repr, DecidableEq

/-- The sort key `a.rangeStart?.getTime() ?? a.dateCreated?.getTime() ?? 0`. -/
def periodSortKey (p : ReportPeriod) : Int :=
  p.rangeStart.getD (p.dateCreated.getD 0)

/-- One step of the `overallStart` scan: `if (p.rangeStart && (!overallStart
|| p.rangeStart < overallStart)) overallStart = p.rangeStart`, for a present
`rangeStart` value `v`. -/
def minStartStep (acc : Option Int) (v : Int) : Option Int :=
  match acc with
  | none => some v
  | some s => if v < s then some v else some s

/-- One step of the `overallEnd` scan: keep the larger of the current end
and a present `rangeEnd` value `v`. -/
def maxEndStep (acc : Option Int) (v : Int) : Option Int :=
  match acc with
  | none => some v
  | some e => if e < v then some v else some e

/-- The fold computing `overallStart` (src/unnamed/part_000:575-579):
keep the smallest `rangeStart` seen. -/
def overallStartFold (ps : List ReportPeriod) : Option Int :=
  ps.foldl
    (fun acc p =>
      match p.rangeStart with
      | none => acc
      | some v => minStartStep acc v)
    none

/-- The fold computing `overallEnd` (src/unnamed/part_000:580-581):
keep the largest `rangeEnd` seen. -/
def overallEndFold (ps : List ReportPeriod) : Option Int :=
  ps.foldl
    (fun acc p =>
      match p.rangeEnd with
      | none => acc
      | some v => maxEndStep acc v)
    none

/-- Deduplicating insertion preserving first-sight order: `Array.from(new
Set(l))`. -/
def dedupFirst : List String → List String
  | [] => []
  | s :: rest => s :: (dedupFirst rest).filter (fun x => x ≠ s)

/-- Lexicographic sort used for `allUsers`/`allPrinters`
(`.sort((a, b) => a.localeCompare(b))`, modelled as code-point order). -/
def sortStrings (l : List String) : List String :=
  l.mergeSort (fun a b => decide (a ≤ b))

/-- Stable insertion of a period into an already-sorted list: the new
element goes after every strictly smaller key and before equal keys it
originally preceded. -/
def insertByKey (x : ReportPeriod) : List ReportPeriod → List ReportPeriod
  | [] => [x]
  | y :: ys =>
      if periodSortKey y < periodSortKey x then y :: insertByKey x ys
      else x :: y :: ys

/-- Stable sort of the periods by `periodSortKey`.  ECMAScript
`Array.prototype.sort` with a consistent comparator is required to be
stable, and every stable sort of a consistent comparator produces the same
list, so insertion sort models it exactly. -/
def insertionSortPeriods : List ReportPeriod → List ReportPeriod
  | [] => []
  | x :: xs => insertByKey x (insertionSortPeriods xs)

/-- Source `computeAggregated` (src/unnamed/part_000:568-608): stable sort of the
periods by `periodSortKey`, the overall range folds, and the deduplicated
sorted user/printer name lists. -/
def computeAggregated (ps : List ReportPeriod) : Aggregated :=
  let sorted := insertionSortPeriods ps
  let overallStart := overallStartFold sorted
  let overallEnd := overallEndFold sorted
  { periods := sorted
    overallRange :=
      match overallStart, overallEnd with
      | some s, some e => some (s, e)
      | _, _ => none
    allUsers := sortStrings (dedupFirst (sorted.flatMap (fun p => p.users.map Prod.fst)))
    allPrinters := sortStrings (dedupFirst (sorted.flatMap (fun p =>
      (p.users.map (fun e => e.2.printerUsage.map (fun pu => pu.ipHostname))).flatten))) }

/-! ### Heap-world model of `aggregateUsersForSelected`
(src/unnamed/part_000:610-704, duplicated at
src/components/report-viewer.tsx:146-234)

The function reads `userData.printerUsage` of its input periods and builds a
fresh result record, but `userAgg.printerUsage.push({ ...printerUsage })`
copies a printer-usage record shallowly: the pushed record and the input
record share one `totals` object.  The later `existing.totals.<f> += ...`
statements therefore write through that shared object into the input
periods.  To capture this, `Totals` objects live in an explicit heap and
printer-usage records hold references. -/

/-- A reference to a mutable `Totals` cell. -/
abbrev Ref := Nat

/-- The JS heap of `Totals` objects, as a total map from references. -/
def Heap : Type := Ref → Totals

/-- Heap read. -/
def Heap.read (h : Heap) (r : Ref) : Totals := h r

/-- Heap write. -/
def Heap.write (h : Heap) (r : Ref) (t : Totals) : Heap :=
  fun r' => if r' = r then t else h r'

/-- A `PrinterUsage` record whose `totals` is a heap reference. -/
structure PrinterUsageH where
  deviceModel : String
  ipHostname : String
  ipAddress : String
  totalsRef : Ref
deriving Repr, DecidableEq

/-- An input `ReportPeriod` as read by `aggregateUsersForSelected`: the
function only reads `p.users[*].printerUsage`, so only the user map with the
printer-usage reference lists is carried. -/
structure ReportPeriodH where
  users : List (String × List PrinterUsageH)
deriving Repr, DecidableEq

/-- One entry of the result record `agg`: the `totals` object is freshly
created by the function and never aliased, so it is a plain value; the
`printerUsage` entries are the shallow copies sharing input cells. -/
structure UserDataA where
  totals : Totals
  printerUsage : List PrinterUsageH
deriving Repr, DecidableEq

/-- The result record `agg` in key-insertion order. -/
abbrev AggMap := List (String × UserDataA)

/-- JS object property read `agg[user]`. -/
def lookupAgg : AggMap → String → Option UserDataA
  | [], _ => none
  | (k, v) :: rest, key => if k = key then some v else lookupAgg rest key

/-- JS object property write `agg[user] = v`. -/
def setAgg : AggMap → String → UserDataA → AggMap
  | [], key, v => [(key, v)]
  | (k, w) :: rest, key, v =>
      if k = key then (k, v) :: rest else (k, w) :: setAgg rest key v

/-- The `(ipHostname, ipAddress)` identity-key test used by `some`/`find`
(src/unnamed/part_000:670-683). -/
def puKeyMatches (p q : PrinterUsageH) : Bool :=
  p.ipHostname == q.ipHostname && p.ipAddress == q.ipAddress

/-- The `else` branch of the merge (src/unnamed/part_000:677-698): the first
entry of the aggregate list matching `pu`'s key accumulates `v` in place,
through the heap. -/
def mergeIntoFirst (h : Heap) (pu : PrinterUsageH) (v : Totals) :
    List PrinterUsageH → Heap
  | [] => h
  | p :: rest =>
      if puKeyMatches p pu then h.write p.totalsRef ((h.read p.totalsRef).add v)
      else mergeIntoFirst h pu v rest

/-- Process one surviving printer-usage record
(src/unnamed/part_000:653-699): read its totals, add them to the user's
aggregate totals, then either push the shallow copy (sharing the totals
cell) or merge into the existing entry through the heap. -/
def processPU (h : Heap) (ua : UserDataA) (pu : PrinterUsageH) :
    Heap × UserDataA :=
  let v := h.read pu.totalsRef
  let newTotals := ua.totals.add v
  if ua.printerUsage.any (fun p => puKeyMatches p pu) then
    (mergeIntoFirst h pu v ua.printerUsage, ⟨newTotals, ua.printerUsage⟩)
  else
    (h, ⟨newTotals, ua.printerUsage ++ [pu]⟩)

/-- The loop over `relevantPrinterUsage`. -/
def processPUs (h : Heap) (ua : UserDataA) :
    List PrinterUsageH → Heap × UserDataA
  | [] => (h, ua)
  | pu :: rest =>
      let s := processPU h ua pu
      processPUs s.1 s.2 rest

/-- The printer filter (src/unnamed/part_000:618-624): applied only when a
selection is supplied and non-empty; an empty or absent selection keeps
every entry.  The JS `Set` is modelled by a list with membership. -/
def relevantPUs (sel : Option (List String)) (l : List PrinterUsageH) :
    List PrinterUsageH :=
  match sel with
  | some s =>
      if s.isEmpty then l
      else l.filter (fun pu => s.contains pu.ipHostname)
  | none => l

/-- Process one `[user, userData]` entry of a period
(src/unnamed/part_000:617-700): skip the user when no printer usage
survives the filter, otherwise create the zero aggregate entry on first
sight and fold the surviving records into it. -/
def processUser (h : Heap) (agg : AggMap) (sel : Option (List String))
    (user : String) (pus : List PrinterUsageH) : Heap × AggMap :=
  let rel := relevantPUs sel pus
  if rel.isEmpty then (h, agg)
  else
    let ua := (lookupAgg agg user).getD ⟨Totals.zero, []⟩
    let s := processPUs h ua rel
    (s.1, setAgg agg user s.2)

/-- The loop over `Object.entries(p.users)`. -/
def processUsers (h : Heap) (agg : AggMap) (sel : Option (List String)) :
    List (String × List PrinterUsageH) → Heap × AggMap
  | [] => (h, agg)
  | (user, pus) :: rest =>
      let s := processUser h agg sel user pus
      processUsers s.1 s.2 sel rest

/-- The loop over `periods`. -/
def processPeriods (h : Heap) (agg : AggMap) (sel : Option (List String)) :
    List ReportPeriodH → Heap × AggMap
  | [] => (h, agg)
  | p :: rest =>
      let s := processUsers h agg sel p.users
      processPeriods s.1 s.2 sel rest

/-- Source `aggregateUsersForSelected` (src/unnamed/part_000:610-704): returns the
final heap (the function's effect on the shared `Totals` objects) together
with the result record. -/
def aggregateUsersForSelected (h : Heap) (ps : List ReportPeriodH)
    (sel : Option (List String)) : Heap × AggMap :=
  processPeriods h [] sel ps

/-- The value of a heap-world printer-usage record: what a caller observes
when reading the shared `totals` object after the call. -/
def readPU (h : Heap) (pu : PrinterUsageH) : PrinterUsage :=
  ⟨pu.deviceModel, pu.ipHostname, pu.ipAddress, h.read pu.totalsRef⟩

/-- The observable value of one aggregate entry. -/
def readUA (h : Heap) (ua : UserDataA) : UserData :=
  ⟨ua.totals, ua.printerUsage.map (readPU h)⟩

/-- The observable value of the whole aggregate record. -/
def readAgg (h : Heap) (agg : AggMap) : List (String × UserData) :=
  agg.map (fun e => (e.1, readUA h e.2))

/-! ### Identity reconciliation (src/unnamed/part_000:1205-1291) -/

/-- The period rewrite of `updateUserName` (src/unnamed/part_000:1205-1253):
a falsy (empty) `editingUser` or a whitespace-only new name is a no-op; a
new name equal to the old one leaves the periods untouched; otherwise every
period containing the old key removes it and merges/moves its data under
the trimmed new key. -/
def updateUserNamePeriods (editingUser tempUserName : String)
    (ps : List ReportPeriod) : List ReportPeriod :=
  if editingUser = "" then ps
  else
    let trimmed := jsTrim tempUserName
    if trimmed = "" then ps
    else if trimmed ≠ editingUser then
      ps.map (fun period =>
        match lookupUser period.users editingUser with
        | none => period
        | some existingData =>
            let updatedUsers := removeUser period.users editingUser
            match lookupUser updatedUsers trimmed with
            | some cur =>
                { period with
                    users := setUser updatedUsers trimmed
                      (mergeUserData cur existingData) }
            | none =>
                { period with
                    users := setUser updatedUsers trimmed existingData })
    else ps

/-- The period rewrite of `deleteSelectedRows`
(src/unnamed/part_000:1279-1291): every selected user key is deleted from
every period's user map; nothing else changes. -/
def deleteSelectedRowsPeriods (selectedRows : List String)
    (ps : List ReportPeriod) : List ReportPeriod :=
  ps.map (fun period =>
    { period with
        users := selectedRows.foldl (fun u k => removeUser u k) period.users })

/-! ### Shared helper lemmas -/

theorem Totals.add_right_comm_law (a b c : Totals) :
    (Totals.add (Totals.add a b) c) = (Totals.add (Totals.add a c) b) := by
  rw [Totals.add_assoc_law, Totals.add_comm_law b c, ← Totals.add_assoc_law]

/-- Field-wise sum of the totals of a printer-usage list. -/
def sumPUTotals (l : List PrinterUsage) : Totals :=
  l.foldr (fun pu acc => pu.totals.add acc) Totals.zero

/-- The `UserData` consistency invariant of the spec: the aggregate totals
equal the field-wise sum over the per-printer breakdown. -/
def consistentUD (ud : UserData) : Prop :=
  ud.totals = sumPUTotals ud.printerUsage

theorem sumPUTotals_append (l₁ l₂ : List PrinterUsage) :
    sumPUTotals (l₁ ++ l₂) = (sumPUTotals l₁).add (sumPUTotals l₂) := by
  induction l₁ with
  | nil => simp [sumPUTotals, Totals.add_zero_left]
  | cons p rest ih =>
      simp only [sumPUTotals, List.foldr_cons, List.cons_append] at *
      rw [ih, Totals.add_assoc_law]

theorem sumPU_addToFirstPU (dm pn ip : String) (t : Totals)
    (l : List PrinterUsage) :
    sumPUTotals (addToFirstPU dm pn ip t l) = (sumPUTotals l).add t := by
  induction l with
  | nil =>
      simp [addToFirstPU, sumPUTotals, Totals.add_zero_left,
        Totals.add_zero_right]
  | cons p rest ih =>
      by_cases hm : p.ipHostname = pn ∧ p.ipAddress = ip
      · simp only [addToFirstPU, if_pos hm, sumPUTotals, List.foldr_cons]
        exact Totals.add_right_comm_law p.totals t _
      · simp only [addToFirstPU, if_neg hm, sumPUTotals, List.foldr_cons]
        have h' := ih
        simp only [sumPUTotals] at h'
        rw [h', ← Totals.add_assoc_law]

theorem processRow_consistent (ud : UserData) (cells : List String)
    (h : consistentUD ud) : consistentUD (processRow ud cells) := by
  unfold processRow
  by_cases hok : totalsOk (decodeRowTotals cells) = true
  · simp only [hok, if_true, consistentUD] at *
    rw [sumPU_addToFirstPU, h]
  · simp only [Bool.not_eq_true] at hok
    simp [hok, h]

theorem scanSection_consistent (rows : List Row) :
    ∀ ud fc, consistentUD ud → consistentUD (scanSection ud fc rows) := by
  induction rows with
  | nil => intro ud fc h; simpa [scanSection] using h
  | cons r rest ih =>
      intro ud fc h
      simp only [scanSection]
      by_cases hg : r.isGroupHdr = true
      · rw [if_pos hg]; exact h
      · rw [if_neg hg]
        by_cases hc : r.isColumnHdr = true
        · rw [if_pos hc]; exact ih ud true h
        · rw [if_neg hc]
          by_cases hh : r.hasHr = true
          · rw [if_pos hh]; exact ih ud fc h
          · rw [if_neg hh]
            by_cases hd : (fc && decide (10 < r.cells.length)) = true
            · rw [if_pos hd]
              by_cases ht :
                  (r.isTotalsRow || containsTotalCI (r.cells.headD "")) = true
              · rw [if_pos ht]; exact ih ud fc h
              · rw [if_neg ht]
                exact ih _ fc (processRow_consistent ud r.cells h)
            · rw [if_neg hd]; exact ih ud fc h

theorem lookupUser_mem (m : UsersMap) (k : String) (v : UserData)
    (h : lookupUser m k = some v) : (k, v) ∈ m := by
  induction m with
  | nil => simp [lookupUser] at h
  | cons f rest ih =>
      obtain ⟨k', v'⟩ := f
      simp only [lookupUser] at h
      by_cases hk : k' = k
      · rw [if_pos hk] at h
        have hv : v' = v := by injection h
        subst hk; subst hv
        exact List.mem_cons_self ..
      · rw [if_neg hk] at h
        exact List.mem_cons_of_mem _ (ih h)

theorem setUser_mem (m : UsersMap) (k : String) (v : UserData)
    (e : String × UserData) (h : e ∈ setUser m k v) : e = (k, v) ∨ e ∈ m := by
  induction m with
  | nil => simp only [setUser, List.mem_singleton] at h; exact Or.inl h
  | cons f rest ih =>
      obtain ⟨k', v'⟩ := f
      simp only [setUser] at h
      by_cases hk : k' = k
      · rw [if_pos hk] at h
        rcases List.mem_cons.mp h with h' | h'
        · subst hk; exact Or.inl h'
        · exact Or.inr (List.mem_cons_of_mem _ h')
      · rw [if_neg hk] at h
        rcases List.mem_cons.mp h with h' | h'
        · exact Or.inr (by rw [h']; exact List.mem_cons_self ..)
        · rcases ih h' with h'' | h''
          · exact Or.inl h''
          · exact Or.inr (List.mem_cons_of_mem _ h'')

theorem parseRowsInBody_consistent (bodyAll laterRows : List Row)
    (rows : List Row) :
    ∀ m, (∀ e ∈ m, consistentUD e.2) →
      ∀ e ∈ parseRowsInBody bodyAll laterRows m rows, consistentUD e.2 := by
  induction rows with
  | nil => intro m hm; simpa [parseRowsInBody] using hm
  | cons r rest ih =>
      intro m hm
      simp only [parseRowsInBody]
      by_cases hq : (r.isGroupHdr && containsUserCI r.text) = true
      · rw [if_pos hq]
        apply ih
        intro e he
        rcases setUser_mem _ _ _ _ he with h' | h'
        · rw [h']
          apply scanSection_consistent
          cases hl : lookupUser m (bodyUsername bodyAll) with
          | none => simp [hl, emptyUserData, consistentUD, sumPUTotals]
          | some ud =>
              simpa [hl] using hm _ (lookupUser_mem _ _ _ hl)
        · exact hm _ h'
      · rw [if_neg hq]
        exact ih m hm

theorem parseBodiesAux_consistent (bs : List (List Row)) :
    ∀ m, (∀ e ∈ m, consistentUD e.2) →
      ∀ e ∈ parseBodiesAux m bs, consistentUD e.2 := by
  induction bs with
  | nil => intro m hm; simpa [parseBodiesAux] using hm
  | cons b rest ih =>
      intro m hm
      simp only [parseBodiesAux]
      exact ih _ (parseRowsInBody_consistent b rest.flatten b m hm)

/-! ### Heap-world lemmas for the aggregator -/

/-- Field-wise sum of the referenced totals of a heap-world printer-usage
list, read in a given heap. -/
def sumPUH (h : Heap) (l : List PrinterUsageH) : Totals :=
  l.foldr (fun pu acc => (h.read pu.totalsRef).add acc) Totals.zero

/-- Consistency of one aggregate entry, observed in a given heap. -/
def UAinv (h : Heap) (ua : UserDataA) : Prop :=
  ua.totals = sumPUH h ua.printerUsage

/-- References held by a printer-usage list. -/
def puRefs (l : List PrinterUsageH) : List Ref := l.map (·.totalsRef)

/-- References held by a period's user map. -/
def usersRefs (us : List (String × List PrinterUsageH)) : List Ref :=
  (us.map (fun e => puRefs e.2)).flatten

/-- References held by a period list. -/
def periodsRefs (ps : List ReportPeriodH) : List Ref :=
  (ps.map (fun p => usersRefs p.users)).flatten

/-- References held by the aggregate record. -/
def aggRefs (agg : AggMap) : List Ref :=
  (agg.map (fun e => puRefs e.2.printerUsage)).flatten

theorem usersRefs_cons (e : String × List PrinterUsageH)
    (us : List (String × List PrinterUsageH)) :
    usersRefs (e :: us) = puRefs e.2 ++ usersRefs us := rfl

theorem periodsRefs_cons (p : ReportPeriodH) (ps : List ReportPeriodH) :
    periodsRefs (p :: ps) = usersRefs p.users ++ periodsRefs ps := rfl

theorem aggRefs_cons (e : String × UserDataA) (agg : AggMap) :
    aggRefs (e :: agg) = puRefs e.2.printerUsage ++ aggRefs agg := rfl

theorem mem_aggRefs (agg : AggMap) (e : String × UserDataA) (r : Ref)
    (he : e ∈ agg) (hr : r ∈ puRefs e.2.printerUsage) : r ∈ aggRefs agg := by
  unfold aggRefs
  exact List.mem_flatten.mpr ⟨puRefs e.2.printerUsage, List.mem_map_of_mem _ he, hr⟩

theorem Heap.read_write_self (h : Heap) (r : Ref) (t : Totals) :
    (h.write r t).read r = t := by
  simp [Heap.read, Heap.write]

theorem Heap.read_write_ne (h : Heap) (r r' : Ref) (t : Totals)
    (hne : r' ≠ r) : (h.write r t).read r' = h.read r' := by
  simp [Heap.read, Heap.write, hne]

theorem sumPUH_congr (h h' : Heap) (l : List PrinterUsageH)
    (hr : ∀ r ∈ puRefs l, h'.read r = h.read r) : sumPUH h' l = sumPUH h l := by
  induction l with
  | nil => rfl
  | cons p rest ih =>
      simp only [sumPUH, List.foldr_cons]
      rw [hr p.totalsRef (by simp [puRefs])]
      have h2 : sumPUH h' rest = sumPUH h rest :=
        ih (fun r hr' => hr r (by simp [puRefs] at hr' ⊢; exact Or.inr hr'))
      simp only [sumPUH] at h2
      rw [h2]

theorem sumPUH_append (h : Heap) (l₁ l₂ : List PrinterUsageH) :
    sumPUH h (l₁ ++ l₂) = (sumPUH h l₁).add (sumPUH h l₂) := by
  induction l₁ with
  | nil => simp [sumPUH, Totals.add_zero_left]
  | cons p rest ih =>
      simp only [sumPUH, List.foldr_cons, List.cons_append] at *
      rw [ih, Totals.add_assoc_law]

theorem mergeIntoFirst_frame (pu : PrinterUsageH) (v : Totals)
    (l : List PrinterUsageH) :
    ∀ (h : Heap) (r : Ref), r ∉ puRefs l →
      (mergeIntoFirst h pu v l).read r = h.read r := by
  induction l with
  | nil => intro h r _; rfl
  | cons p rest ih =>
      intro h r hr
      simp only [puRefs, List.map_cons, List.mem_cons] at hr
      push_neg at hr
      simp only [mergeIntoFirst]
      by_cases hm : puKeyMatches p pu = true
      · rw [if_pos hm]
        exact Heap.read_write_ne h _ _ _ hr.1
      · rw [if_neg hm]
        exact ih h r (by simpa [puRefs] using hr.2)

theorem mergeIntoFirst_sum (pu : PrinterUsageH) (v : Totals)
    (l : List PrinterUsageH) :
    ∀ (h : Heap), (puRefs l).Nodup →
      l.any (fun p => puKeyMatches p pu) = true →
      sumPUH (mergeIntoFirst h pu v l) l = (sumPUH h l).add v := by
  induction l with
  | nil => intro h _ hex; simp at hex
  | cons p rest ih =>
      intro h hnd hex
      have hndr : (puRefs rest).Nodup := by
        simpa [puRefs] using hnd.of_cons
      have hpr : p.totalsRef ∉ puRefs rest := by
        have := hnd
        simp only [puRefs, List.map_cons, List.nodup_cons] at this
        simpa [puRefs] using this.1
      simp only [mergeIntoFirst]
      by_cases hm : puKeyMatches p pu = true
      · rw [if_pos hm]
        simp only [sumPUH, List.foldr_cons]
        rw [Heap.read_write_self]
        have hcong : sumPUH (h.write p.totalsRef ((h.read p.totalsRef).add v)) rest
            = sumPUH h rest := by
          apply sumPUH_congr
          intro r hr
          exact Heap.read_write_ne h _ _ _ (fun he => hpr (he ▸ hr))
        simp only [sumPUH] at hcong
        rw [hcong]
        exact Totals.add_right_comm_law (h.read p.totalsRef) v _
      · rw [if_neg hm]
        have hex' : rest.any (fun q => puKeyMatches q pu) = true := by
          simp only [List.any_cons, hm, Bool.false_or] at hex
          exact hex
        simp only [sumPUH, List.foldr_cons]
        rw [mergeIntoFirst_frame pu v rest h p.totalsRef hpr]
        have hr' := ih h hndr hex'
        simp only [sumPUH] at hr'
        rw [hr', ← Totals.add_assoc_law]

theorem processPU_spec (h : Heap) (ua : UserDataA) (pu : PrinterUsageH)
    (hnd : (puRefs ua.printerUsage).Nodup) (hinv : UAinv h ua) :
    UAinv (processPU h ua pu).1 (processPU h ua pu).2
    ∧ (∀ r, r ∉ puRefs ua.printerUsage →
        (processPU h ua pu).1.read r = h.read r)
    ∧ (puRefs (processPU h ua pu).2.printerUsage = puRefs ua.printerUsage
       ∨ puRefs (processPU h ua pu).2.printerUsage
          = puRefs ua.printerUsage ++ [pu.totalsRef]) := by
  unfold processPU
  by_cases hex : ua.printerUsage.any (fun p => puKeyMatches p pu) = true
  · rw [if_pos hex]
    refine ⟨?_, ?_, Or.inl rfl⟩
    · show ua.totals.add (h.read pu.totalsRef)
        = sumPUH (mergeIntoFirst h pu (h.read pu.totalsRef) ua.printerUsage)
            ua.printerUsage
      rw [mergeIntoFirst_sum pu _ ua.printerUsage h hnd hex, ← hinv]
    · intro r hr
      exact mergeIntoFirst_frame pu _ ua.printerUsage h r hr
  · rw [if_neg hex]
    refine ⟨?_, fun r _ => rfl, Or.inr (by simp [puRefs])⟩
    show ua.totals.add (h.read pu.totalsRef)
      = sumPUH h (ua.printerUsage ++ [pu])
    rw [sumPUH_append, ← hinv]
    simp [sumPUH, Totals.add_zero_right]

theorem processPUs_spec (l : List PrinterUsageH) :
    ∀ (h : Heap) (ua : UserDataA),
      (puRefs ua.printerUsage ++ puRefs l).Nodup → UAinv h ua →
      UAinv (processPUs h ua l).1 (processPUs h ua l).2
      ∧ (∀ r, r ∉ puRefs ua.printerUsage ++ puRefs l →
          (processPUs h ua l).1.read r = h.read r)
      ∧ (puRefs (processPUs h ua l).2.printerUsage).Sublist
          (puRefs ua.printerUsage ++ puRefs l) := by
  induction l with
  | nil =>
      intro h ua hnd hinv
      refine ⟨hinv, fun r _ => rfl, ?_⟩
      simp [processPUs, List.sublist_append_left]
  | cons pu rest ih =>
      intro h ua hnd hinv
      have hl : puRefs (pu :: rest) = pu.totalsRef :: puRefs rest := rfl
      rw [hl] at hnd
      have hndA : (puRefs ua.printerUsage).Nodup :=
        ((List.nodup_append).mp hnd).1
      obtain ⟨hinv1, hframe1, hrefs1⟩ := processPU_spec h ua pu hndA hinv
      have hstep : processPUs h ua (pu :: rest)
          = processPUs (processPU h ua pu).1 (processPU h ua pu).2 rest := rfl
      have hnd' : (puRefs (processPU h ua pu).2.printerUsage ++ puRefs rest).Nodup := by
        rcases hrefs1 with he | he
        · rw [he]
          refine List.Sublist.nodup ?_ hnd
          exact List.Sublist.append_left (List.sublist_cons_self _ _) _
        · rw [he]
          have : puRefs ua.printerUsage ++ [pu.totalsRef] ++ puRefs rest
              = puRefs ua.printerUsage ++ pu.totalsRef :: puRefs rest := by
            simp
          rw [this]
          exact hnd
      obtain ⟨hinv2, hframe2, hsub2⟩ :=
        ih (processPU h ua pu).1 (processPU h ua pu).2 hnd' hinv1
      rw [hstep]
      refine ⟨hinv2, ?_, ?_⟩
      · intro r hr
        rw [hl] at hr
        have hrA : r ∉ puRefs ua.printerUsage := by
          intro hc
          exact hr (List.mem_append_left _ hc)
        have hr0 : r ≠ pu.totalsRef := by
          intro hc
          exact hr (List.mem_append_right _ (by rw [hc]; exact List.mem_cons_self ..))
        have hrR : r ∉ puRefs rest := by
          intro hc
          exact hr (List.mem_append_right _ (List.mem_cons_of_mem _ hc))
        have hr2 : r ∉ puRefs (processPU h ua pu).2.printerUsage ++ puRefs rest := by
          intro hc
          rcases List.mem_append.mp hc with hc' | hc'
          · rcases hrefs1 with he | he
            · rw [he] at hc'; exact hrA hc'
            · rw [he] at hc'
              rcases List.mem_append.mp hc' with hc'' | hc''
              · exact hrA hc''
              · exact hr0 (by simpa using hc'')
          · exact hrR hc'
        rw [hframe2 r hr2, hframe1 r hrA]
      · have hlift : (puRefs (processPU h ua pu).2.printerUsage ++ puRefs rest).Sublist
            (puRefs ua.printerUsage ++ pu.totalsRef :: puRefs rest) := by
          rcases hrefs1 with he | he
          · rw [he]
            exact List.Sublist.append_left (List.sublist_cons_self _ _) _
          · rw [he]
            have : puRefs ua.printerUsage ++ [pu.totalsRef] ++ puRefs rest
                = puRefs ua.printerUsage ++ pu.totalsRef :: puRefs rest := by
              simp
            rw [this]
        exact hsub2.trans hlift

theorem UAinv_congr (h h' : Heap) (ua : UserDataA)
    (hr : ∀ r ∈ puRefs ua.printerUsage, h'.read r = h.read r)
    (hinv : UAinv h ua) : UAinv h' ua := by
  unfold UAinv at *
  rw [sumPUH_congr h h' _ hr]
  exact hinv

theorem lookupSet_spec (user : String) (rel : List PrinterUsageH)
    (agg : AggMap) :
    ∀ (h : Heap),
      (∀ e ∈ agg, UAinv h e.2) →
      (aggRefs agg ++ puRefs rel).Nodup →
      (∀ e ∈ setAgg agg user
          (processPUs h ((lookupAgg agg user).getD ⟨Totals.zero, []⟩) rel).2,
        UAinv (processPUs h ((lookupAgg agg user).getD ⟨Totals.zero, []⟩) rel).1
          e.2)
      ∧ (∀ r, r ∉ aggRefs agg ++ puRefs rel →
          (processPUs h ((lookupAgg agg user).getD ⟨Totals.zero, []⟩) rel).1.read r
            = h.read r)
      ∧ (aggRefs (setAgg agg user
          (processPUs h ((lookupAgg agg user).getD ⟨Totals.zero, []⟩) rel).2)).Nodup
      ∧ (∀ r ∈ aggRefs (setAgg agg user
          (processPUs h ((lookupAgg agg user).getD ⟨Totals.zero, []⟩) rel).2),
          r ∈ aggRefs agg ∨ r ∈ puRefs rel) := by
  induction agg with
  | nil =>
      intro h _ hnd
      have hnd' : (puRefs ([] : List PrinterUsageH) ++ puRefs rel).Nodup := by
        simpa [aggRefs, puRefs] using hnd
      have hinv0 : UAinv h ⟨Totals.zero, []⟩ := rfl
      obtain ⟨hinv, hframe, hsub⟩ := processPUs_spec rel h ⟨Totals.zero, []⟩ hnd' hinv0
      simp only [lookupAgg, Option.getD_none, setAgg] at *
      refine ⟨?_, ?_, ?_, ?_⟩
      · intro e he
        rcases List.mem_singleton.mp he with rfl
        exact hinv
      · intro r hr
        exact hframe r (by simpa [aggRefs, puRefs] using hr)
      · simp only [aggRefs, List.map_cons, List.map_nil, List.flatten]
        rw [List.append_nil]
        refine List.Sublist.nodup (hsub.trans ?_) hnd
        simp [aggRefs, puRefs]
      · intro r hr
        simp only [aggRefs, List.map_cons, List.map_nil, List.flatten] at hr
        rw [List.append_nil] at hr
        have := hsub.subset hr
        simp only [puRefs, List.map_nil, List.nil_append] at this
        exact Or.inr this
  | cons f rest ih =>
      obtain ⟨k, w⟩ := f
      intro h hm hnd
      rw [aggRefs_cons] at hnd
      have h1 := List.nodup_append.mp hnd
      have h2 := List.nodup_append.mp h1.1
      by_cases hk : k = user
      · simp only [lookupAgg, setAgg, if_pos hk, Option.getD_some]
        have hndw : (puRefs w.printerUsage ++ puRefs rel).Nodup := by
          refine List.Sublist.nodup ?_ hnd
          rw [List.append_assoc]
          exact List.Sublist.append_left (List.sublist_append_right _ _) _
        obtain ⟨hinv1, hframe1, hsub1⟩ :=
          processPUs_spec rel h w hndw (hm (k, w) (List.mem_cons_self ..))
        refine ⟨?_, ?_, ?_, ?_⟩
        · intro e he
          rcases List.mem_cons.mp he with he' | he'
          · rw [he']
            exact hinv1
          · refine UAinv_congr h _ e.2 ?_ (hm e (List.mem_cons_of_mem _ he'))
            intro r hr
            apply hframe1
            intro hc
            have hrR : r ∈ aggRefs rest := mem_aggRefs rest e r he' hr
            rcases List.mem_append.mp hc with hc' | hc'
            · exact h2.2.2 hc' hrR
            · exact h1.2.2 (List.mem_append_right _ hrR) hc'
        · intro r hr
          rw [aggRefs_cons] at hr
          apply hframe1
          intro hc
          rcases List.mem_append.mp hc with hc' | hc'
          · exact hr (List.mem_append_left _ (List.mem_append_left _ hc'))
          · exact hr (List.mem_append_right _ hc')
        · rw [aggRefs_cons]
          refine List.nodup_append.mpr ⟨hsub1.nodup hndw, h2.2.1, ?_⟩
          intro r hrX hrR
          rcases List.mem_append.mp (hsub1.subset hrX) with hc | hc
          · exact h2.2.2 hc hrR
          · exact h1.2.2 (List.mem_append_right _ hrR) hc
        · intro r hr
          rw [aggRefs_cons] at hr ⊢
          rcases List.mem_append.mp hr with hc | hc
          · rcases List.mem_append.mp (hsub1.subset hc) with hc' | hc'
            · exact Or.inl (List.mem_append_left _ hc')
            · exact Or.inr hc'
          · exact Or.inl (List.mem_append_right _ hc)
      · simp only [lookupAgg, setAgg, if_neg hk]
        have hndr : (aggRefs rest ++ puRefs rel).Nodup := by
          refine List.Sublist.nodup ?_ hnd
          rw [List.append_assoc]
          exact List.sublist_append_right _ _
        have hmr : ∀ e ∈ rest, UAinv h e.2 :=
          fun e he => hm e (List.mem_cons_of_mem _ he)
        obtain ⟨ihm, ihf, ihn, ihmem⟩ := ih h hmr hndr
        refine ⟨?_, ?_, ?_, ?_⟩
        · intro e he
          rcases List.mem_cons.mp he with he' | he'
          · rw [he']
            refine UAinv_congr h _ w ?_ (hm (k, w) (List.mem_cons_self ..))
            intro r hr
            apply ihf
            intro hc
            rcases List.mem_append.mp hc with hc' | hc'
            · exact h2.2.2 hr hc'
            · exact h1.2.2 (List.mem_append_left _ hr) hc'
          · exact ihm e he'
        · intro r hr
          rw [aggRefs_cons] at hr
          apply ihf
          intro hc
          rcases List.mem_append.mp hc with hc' | hc'
          · exact hr (List.mem_append_left _ (List.mem_append_right _ hc'))
          · exact hr (List.mem_append_right _ hc')
        · rw [aggRefs_cons]
          refine List.nodup_append.mpr ⟨h2.1, ihn, ?_⟩
          intro r hrW hrX
          rcases ihmem r hrX with hc | hc
          · exact h2.2.2 hrW hc
          · exact h1.2.2 (List.mem_append_left _ hrW) hc
        · intro r hr
          rw [aggRefs_cons] at hr ⊢
          rcases List.mem_append.mp hr with hc | hc
          · exact Or.inl (List.mem_append_left _ hc)
          · rcases ihmem r hc with hc' | hc'
            · exact Or.inl (List.mem_append_right _ hc')
            · exact Or.inr hc'

theorem puRefs_relevant_sublist (sel : Option (List String))
    (l : List PrinterUsageH) : (puRefs (relevantPUs sel l)).Sublist (puRefs l) := by
  cases sel with
  | none => exact List.Sublist.refl _
  | some s =>
      show (puRefs (if s.isEmpty = true then l
        else l.filter (fun pu => s.contains pu.ipHostname))).Sublist (puRefs l)
      by_cases hs : s.isEmpty = true
      · rw [if_pos hs]
      · rw [if_neg hs]
        exact List.Sublist.map _ (List.filter_sublist l)

theorem processUser_spec (h : Heap) (agg : AggMap) (sel : Option (List String))
    (user : String) (pus : List PrinterUsageH)
    (hm : ∀ e ∈ agg, UAinv h e.2)
    (hnd : (aggRefs agg ++ puRefs pus).Nodup) :
    (∀ e ∈ (processUser h agg sel user pus).2,
      UAinv (processUser h agg sel user pus).1 e.2)
    ∧ (∀ r, r ∉ aggRefs agg ++ puRefs pus →
        (processUser h agg sel user pus).1.read r = h.read r)
    ∧ (aggRefs (processUser h agg sel user pus).2).Nodup
    ∧ (∀ r ∈ aggRefs (processUser h agg sel user pus).2,
        r ∈ aggRefs agg ∨ r ∈ puRefs pus) := by
  unfold processUser
  by_cases he : (relevantPUs sel pus).isEmpty = true
  · rw [if_pos he]
    refine ⟨hm, fun r _ => rfl, ?_, fun r hr => Or.inl hr⟩
    exact List.Sublist.nodup (List.sublist_append_left _ _) hnd
  · rw [if_neg he]
    have hrel := puRefs_relevant_sublist sel pus
    have hnd' : (aggRefs agg ++ puRefs (relevantPUs sel pus)).Nodup :=
      List.Sublist.nodup (List.Sublist.append_left hrel _) hnd
    obtain ⟨hmem, hframe, hn, hsub⟩ := lookupSet_spec user (relevantPUs sel pus) agg h hm hnd'
    refine ⟨hmem, ?_, hn, ?_⟩
    · intro r hr
      apply hframe
      intro hc
      rcases List.mem_append.mp hc with hc' | hc'
      · exact hr (List.mem_append_left _ hc')
      · exact hr (List.mem_append_right _ (hrel.subset hc'))
    · intro r hr
      rcases hsub r hr with hc | hc
      · exact Or.inl hc
      · exact Or.inr (hrel.subset hc)

theorem processUsers_spec (sel : Option (List String))
    (us : List (String × List PrinterUsageH)) :
    ∀ (h : Heap) (agg : AggMap),
      (∀ e ∈ agg, UAinv h e.2) →
      (aggRefs agg ++ usersRefs us).Nodup →
      (∀ e ∈ (processUsers h agg sel us).2,
        UAinv (processUsers h agg sel us).1 e.2)
      ∧ (∀ r, r ∉ aggRefs agg ++ usersRefs us →
          (processUsers h agg sel us).1.read r = h.read r)
      ∧ (aggRefs (processUsers h agg sel us).2).Nodup
      ∧ (∀ r ∈ aggRefs (processUsers h agg sel us).2,
          r ∈ aggRefs agg ∨ r ∈ usersRefs us) := by
  induction us with
  | nil =>
      intro h agg hm hnd
      refine ⟨hm, fun r _ => rfl, ?_, fun r hr => Or.inl hr⟩
      exact List.Sublist.nodup (List.sublist_append_left _ _) hnd
  | cons e us' ih =>
      intro h agg hm hnd
      obtain ⟨user, pus⟩ := e
      rw [usersRefs_cons] at hnd
      have h1 := List.nodup_append.mp
        (hnd : (aggRefs agg ++ (puRefs pus ++ usersRefs us')).Nodup)
      have h2 := List.nodup_append.mp h1.2.1
      have hnd1 : (aggRefs agg ++ puRefs pus).Nodup := by
        refine List.nodup_append.mpr ⟨h1.1, h2.1, ?_⟩
        intro r hrA hrP
        exact h1.2.2 hrA (List.mem_append_left _ hrP)
      obtain ⟨hm1, hf1, hn1, hs1⟩ := processUser_spec h agg sel user pus hm hnd1
      have hstep : processUsers h agg sel ((user, pus) :: us')
          = processUsers (processUser h agg sel user pus).1
              (processUser h agg sel user pus).2 sel us' := rfl
      have hnd2 : (aggRefs (processUser h agg sel user pus).2 ++ usersRefs us').Nodup := by
        refine List.nodup_append.mpr ⟨hn1, h2.2.1, ?_⟩
        intro r hrX hrU
        rcases hs1 r hrX with hc | hc
        · exact h1.2.2 hc (List.mem_append_right _ hrU)
        · exact h2.2.2 hc hrU
      obtain ⟨hm2, hf2, hn2, hs2⟩ := ih (processUser h agg sel user pus).1
        (processUser h agg sel user pus).2 hm1 hnd2
      rw [hstep]
      refine ⟨hm2, ?_, hn2, ?_⟩
      · intro r hr
        have hrA : r ∉ aggRefs agg := fun hc => hr (List.mem_append_left _ hc)
        have hrP : r ∉ puRefs pus := fun hc =>
          hr (List.mem_append_right _ (List.mem_append_left _ hc))
        have hrU : r ∉ usersRefs us' := fun hc =>
          hr (List.mem_append_right _ (List.mem_append_right _ hc))
        have hr2 : r ∉ aggRefs (processUser h agg sel user pus).2 ++ usersRefs us' := by
          intro hc
          rcases List.mem_append.mp hc with hc' | hc'
          · rcases hs1 r hc' with hc'' | hc''
            · exact hrA hc''
            · exact hrP hc''
          · exact hrU hc'
        rw [hf2 r hr2]
        exact hf1 r (fun hc => (List.mem_append.mp hc).elim hrA hrP)
      · intro r hr
        rcases hs2 r hr with hc | hc
        · rcases hs1 r hc with hc' | hc'
          · exact Or.inl hc'
          · exact Or.inr (List.mem_append_left _ hc')
        · exact Or.inr (List.mem_append_right _ hc)

theorem processPeriods_spec (sel : Option (List String))
    (ps : List ReportPeriodH) :
    ∀ (h : Heap) (agg : AggMap),
      (∀ e ∈ agg, UAinv h e.2) →
      (aggRefs agg ++ periodsRefs ps).Nodup →
      (∀ e ∈ (processPeriods h agg sel ps).2,
        UAinv (processPeriods h agg sel ps).1 e.2)
      ∧ (∀ r, r ∉ aggRefs agg ++ periodsRefs ps →
          (processPeriods h agg sel ps).1.read r = h.read r)
      ∧ (aggRefs (processPeriods h agg sel ps).2).Nodup
      ∧ (∀ r ∈ aggRefs (processPeriods h agg sel ps).2,
          r ∈ aggRefs agg ∨ r ∈ periodsRefs ps) := by
  induction ps with
  | nil =>
      intro h agg hm hnd
      refine ⟨hm, fun r _ => rfl, ?_, fun r hr => Or.inl hr⟩
      exact List.Sublist.nodup (List.sublist_append_left _ _) hnd
  | cons p ps' ih =>
      intro h agg hm hnd
      rw [periodsRefs_cons] at hnd
      have h1 := List.nodup_append.mp
        (hnd : (aggRefs agg ++ (usersRefs p.users ++ periodsRefs ps')).Nodup)
      have h2 := List.nodup_append.mp h1.2.1
      have hnd1 : (aggRefs agg ++ usersRefs p.users).Nodup := by
        refine List.nodup_append.mpr ⟨h1.1, h2.1, ?_⟩
        intro r hrA hrP
        exact h1.2.2 hrA (List.mem_append_left _ hrP)
      obtain ⟨hm1, hf1, hn1, hs1⟩ := processUsers_spec sel p.users h agg hm hnd1
      have hstep : processPeriods h agg sel (p :: ps')
          = processPeriods (processUsers h agg sel p.users).1
              (processUsers h agg sel p.users).2 sel ps' := rfl
      have hnd2 : (aggRefs (processUsers h agg sel p.users).2 ++ periodsRefs ps').Nodup := by
        refine List.nodup_append.mpr ⟨hn1, h2.2.1, ?_⟩
        intro r hrX hrU
        rcases hs1 r hrX with hc | hc
        · exact h1.2.2 hc (List.mem_append_right _ hrU)
        · exact h2.2.2 hc hrU
      obtain ⟨hm2, hf2, hn2, hs2⟩ := ih (processUsers h agg sel p.users).1
        (processUsers h agg sel p.users).2 hm1 hnd2
      rw [hstep]
      refine ⟨hm2, ?_, hn2, ?_⟩
      · intro r hr
        have hrA : r ∉ aggRefs agg := fun hc => hr (List.mem_append_left _ hc)
        have hrP : r ∉ usersRefs p.users := fun hc =>
          hr (List.mem_append_right _ (List.mem_append_left _ hc))
        have hrU : r ∉ periodsRefs ps' := fun hc =>
          hr (List.mem_append_right _ (List.mem_append_right _ hc))
        have hr2 : r ∉ aggRefs (processUsers h agg sel p.users).2 ++ periodsRefs ps' := by
          intro hc
          rcases List.mem_append.mp hc with hc' | hc'
          · rcases hs1 r hc' with hc'' | hc''
            · exact hrA hc''
            · exact hrP hc''
          · exact hrU hc'
        rw [hf2 r hr2]
        exact hf1 r (fun hc => (List.mem_append.mp hc).elim hrA hrP)
      · intro r hr
        rcases hs2 r hr with hc | hc
        · rcases hs1 r hc with hc' | hc'
          · exact Or.inl hc'
          · exact Or.inr (List.mem_append_left _ hc')
        · exact Or.inr (List.mem_append_right _ hc)

theorem sumPUTotals_map_readPU (h : Heap) (l : List PrinterUsageH) :
    sumPUTotals (l.map (readPU h)) = sumPUH h l := by
  induction l with
  | nil => rfl
  | cons p rest ih =>
      simp only [sumPUTotals, sumPUH, List.map_cons, List.foldr_cons] at *
      rw [ih]
      rfl

/-! ### Claim C1 -/

/-- C1: for every `UserData` produced by the parser (`parseReportHtmlUsers`)
on any document, and for every `UserData` observable in the output of the
aggregator (`aggregateUsersForSelected`) on any heap, any period list whose
totals references are pairwise distinct (as the objects created by parsing
or deserialisation always are), and any printer filter, the `totals` record
equals the field-wise sum of the `printerUsage` entries' `totals` records
over all 13 counters. -/
theorem C1_totals_consistency :
    (∀ d : Doc, ∀ e ∈ parseReportHtmlUsers d, consistentUD e.2)
    ∧ (∀ (h : Heap) (ps : List ReportPeriodH) (sel : Option (List String)),
        (periodsRefs ps).Nodup →
        ∀ e ∈ readAgg (aggregateUsersForSelected h ps sel).1
            (aggregateUsersForSelected h ps sel).2,
          consistentUD e.2) := by
  constructor
  · intro d e he
    exact parseBodiesAux_consistent d.bodies [] (by simp) e he
  · intro h ps sel hnd e he
    have hnd' : (aggRefs ([] : AggMap) ++ periodsRefs ps).Nodup := by
      simpa [aggRefs] using hnd
    obtain ⟨hm, _, _, _⟩ := processPeriods_spec sel ps h [] (by simp) hnd'
    unfold readAgg at he
    obtain ⟨a, ha, rfl⟩ := List.mem_map.mp he
    show consistentUD (readUA (aggregateUsersForSelected h ps sel).1 a.2)
    unfold consistentUD readUA
    simp only
    rw [sumPUTotals_map_readPU]
    exact hm a ha

/-- Concrete document for the C1 witness: one user section with one data
row. -/
def docC1 : Doc :=
  ⟨[[⟨true, false, false, false, "Printed by user", []⟩,
     ⟨false, false, false, false, "alice", ["alice"]⟩,
     ⟨false, true, false, false, "columns", ["Device"]⟩,
     ⟨false, false, false, false, "data",
       ["dev", "P1", "10.0.0.1", "x", "x", "x", "x", "5", "2", "1", "8"]⟩]]⟩

/-- The entry the parser produces for `docC1`. -/
def entryC1 : String × UserData :=
  ("alice",
   ⟨⟨5, 2, 1, 8, 0, 0, 0, 0, 0, 0, 0, 0, 0⟩,
    [⟨"dev", "P1", "10.0.0.1", ⟨5, 2, 1, 8, 0, 0, 0, 0, 0, 0, 0, 0, 0⟩⟩]⟩)

/-- Concrete heap for the C1 witness: cells 0 and 1 hold mono counts 1
and 2. -/
def heapC1 : Heap :=
  fun r => [(⟨1, 0, 0, 0, 0, 0, 0, 0, 0, 0, 0, 0, 0⟩ : Totals),
            ⟨2, 0, 0, 0, 0, 0, 0, 0, 0, 0, 0, 0, 0⟩].getD r Totals.zero

/-- Concrete two-period input for the C1 witness: the same user and the
same printer identity in both periods, with distinct totals cells. -/
def periodsC1 : List ReportPeriodH :=
  [⟨[("u", [⟨"dev", "P", "ip", 0⟩])]⟩, ⟨[("u", [⟨"dev", "P", "ip", 1⟩])]⟩]

/-- The observable aggregate entry for `heapC1`/`periodsC1`. -/
def entryC1agg : String × UserData :=
  ("u",
   ⟨⟨3, 0, 0, 0, 0, 0, 0, 0, 0, 0, 0, 0, 0⟩,
    [⟨"dev", "P", "ip", ⟨3, 0, 0, 0, 0, 0, 0, 0, 0, 0, 0, 0, 0⟩⟩]⟩)

/-- Witness for C1 at concrete inputs. -/
theorem C1_totals_consistency_witness :
    consistentUD entryC1.2 ∧ consistentUD entryC1agg.2 :=
  ⟨C1_totals_consistency.1 docC1 entryC1 (by decide),
   C1_totals_consistency.2 heapC1 periodsC1 none (by decide) entryC1agg
     (by decide)⟩

/-! ### Claim C2 -/

/-- First mono-only counter cell for the C2 failing input. -/
def heapC2 : Heap :=
  fun r => [(⟨1, 0, 0, 0, 0, 0, 0, 0, 0, 0, 0, 0, 0⟩ : Totals),
            ⟨2, 0, 0, 0, 0, 0, 0, 0, 0, 0, 0, 0, 0⟩].getD r Totals.zero

/-- Two periods holding the same user and the same printer identity with
distinct totals objects (as two separately parsed uploads always do). -/
def periodsC2 : List ReportPeriodH :=
  [⟨[("u", [⟨"dev", "P", "ip", 0⟩])]⟩, ⟨[("u", [⟨"dev", "P", "ip", 1⟩])]⟩]

/-- The first aggregation call on the C2 input. -/
def c2FirstCall : Heap × AggMap :=
  aggregateUsersForSelected heapC2 periodsC2 none

/-- The second aggregation call, on the heap left by the first. -/
def c2SecondCall : Heap × AggMap :=
  aggregateUsersForSelected c2FirstCall.1 periodsC2 none

/-- C2 fails on the code: `userAgg.printerUsage.push({ ...printerUsage })`
shares the input period's `totals` object, and the cross-period merge then
writes through it into the input.  On a two-period input with the same user
and printer, the first call reports mono = 3 but corrupts period 1's cell to
3, so the second call with identical arguments reports mono = 5; the
observable output of the two calls differs and the input heap is changed. -/
theorem C2_counterexample :
    readAgg c2FirstCall.1 c2FirstCall.2 ≠ readAgg c2SecondCall.1 c2SecondCall.2
    ∧ Heap.read c2FirstCall.1 0 ≠ Heap.read heapC2 0 := by
  constructor
  · decide
  · decide

/-! ### Claim C3 -/

/-- Concrete document for C3: the data row has 11 cells, cell 10 (the
`total` column) is present but the empty string; mono/color/blank decode to
1/2/3. -/
def docC3 : Doc :=
  ⟨[[⟨true, false, false, false, "Printed by user", []⟩,
     ⟨false, false, false, false, "alice", ["alice"]⟩,
     ⟨false, true, false, false, "columns", ["Device"]⟩,
     ⟨false, false, false, false, "data",
       ["dev", "P1", "10.0.0.1", "x", "x", "x", "x", "1", "2", "3", ""]⟩]]⟩

/-- C3 is false on the code: `cells[10] ?? String(mono + color + blank)`
does not take the fallback on an empty string (only on a missing cell), so
the row's recorded `total` is `parseIntSafe("") = 0`, not
`mono + color + blank = 6`. -/
theorem C3_counterexample :
    (docC3.bodies.headD []).getLast?.map (fun r => r.cells.getD 10 "missing")
      = some ""
    ∧ (parseReportHtmlUsers docC3).map
        (fun e => (e.1, e.2.totals.mono, e.2.totals.color, e.2.totals.blank,
          e.2.totals.total))
      = [("alice", 1, 2, 3, 0)]
    ∧ (lookupUser (parseReportHtmlUsers docC3) "alice").map
          (fun ud => ud.totals.total)
        ≠ (lookupUser (parseReportHtmlUsers docC3) "alice").map
          (fun ud => ud.totals.mono + ud.totals.color + ud.totals.blank) := by
  refine ⟨by decide, by decide, by decide⟩

/-- C3 amended: a retained data row always has more than 10 cells, so its
`total` cell is never missing and the `mono + color + blank` fallback is
dead for it; when the `total` cell is present but empty, the recorded
`total` is 0. -/
theorem C3_amended (cells : List String) (hlen : 10 < cells.length)
    (hempty : cells.getD 10 "x" = "") : (decodeRowTotals cells).total = 0 := by
  have h10 : ∀ d, cellD cells 10 d = "" := by
    intro d
    unfold cellD
    rw [List.getD_eq_getElem _ d hlen]
    rw [List.getD_eq_getElem _ "x" hlen] at hempty
    exact hempty
  unfold decodeRowTotals
  simp only [h10]
  decide

/-- Witness for the amended C3 at the concrete row of `docC3`. -/
theorem C3_amended_witness :
    10 < (["dev", "P1", "10.0.0.1", "x", "x", "x", "x", "1", "2", "3", ""] :
        List String).length
    ∧ (decodeRowTotals
        ["dev", "P1", "10.0.0.1", "x", "x", "x", "x", "1", "2", "3", ""]).total
      = 0 :=
  ⟨by decide,
   C3_amended ["dev", "P1", "10.0.0.1", "x", "x", "x", "x", "1", "2", "3", ""]
     (by decide) (by decide)⟩

/-! ### Claim C4 -/

theorem setUser_keys (m : UsersMap) (key : String) (v : UserData) (k : String)
    (h : k ∈ (setUser m key v).map Prod.fst) :
    k ∈ m.map Prod.fst ∨ k = key := by
  obtain ⟨e, he, hk⟩ := List.mem_map.mp h
  rcases setUser_mem m key v e he with h' | h'
  · right
    rw [← hk, h']
  · left
    exact List.mem_map.mpr ⟨e, h', hk⟩

/-- Which group-header rows create a user entry: `tr.group_hdr` whose text
contains `user` case-insensitively (src/unnamed/part_000:317-321). -/
def qualifiesGH (r : Row) : Bool := r.isGroupHdr && containsUserCI r.text

theorem parseRowsInBody_keys (bodyAll laterRows : List Row)
    (rows : List Row) :
    ∀ (m : UsersMap) (k : String),
      k ∈ (parseRowsInBody bodyAll laterRows m rows).map Prod.fst →
      k ∈ m.map Prod.fst
      ∨ (k = bodyUsername bodyAll ∧ rows.any qualifiesGH = true) := by
  induction rows with
  | nil =>
      intro m k hk
      exact Or.inl (by simpa [parseRowsInBody] using hk)
  | cons r rest ih =>
      intro m k hk
      simp only [parseRowsInBody] at hk
      by_cases hq : (r.isGroupHdr && containsUserCI r.text) = true
      · rw [if_pos hq] at hk
        rcases ih _ k hk with h' | h'
        · rcases setUser_keys _ _ _ k h' with h'' | h''
          · exact Or.inl h''
          · refine Or.inr ⟨h'', ?_⟩
            simp [List.any_cons, qualifiesGH, hq]
        · refine Or.inr ⟨h'.1, ?_⟩
          simp [List.any_cons, h'.2]
      · rw [if_neg hq] at hk
        rcases ih m k hk with h' | h'
        · exact Or.inl h'
        · refine Or.inr ⟨h'.1, ?_⟩
          simp [List.any_cons, h'.2]

theorem parseBodiesAux_keys (bs : List (List Row)) :
    ∀ (m : UsersMap) (k : String),
      k ∈ (parseBodiesAux m bs).map Prod.fst →
      k ∈ m.map Prod.fst
      ∨ ∃ b ∈ bs, b.any qualifiesGH = true ∧ k = bodyUsername b := by
  induction bs with
  | nil =>
      intro m k hk
      exact Or.inl (by simpa [parseBodiesAux] using hk)
  | cons b rest ih =>
      intro m k hk
      simp only [parseBodiesAux] at hk
      rcases ih _ k hk with h' | h'
      · rcases parseRowsInBody_keys b rest.flatten b m k h' with h'' | h''
        · exact Or.inl h''
        · exact Or.inr ⟨b, List.mem_cons_self .., h''.2, h''.1⟩
      · obtain ⟨b', hb', hq', hk'⟩ := h'
        exact Or.inr ⟨b', List.mem_cons_of_mem _ hb', hq', hk'⟩

/-- Concrete document for C4: two group-header sections sharing one parent
element.  The second row following the second group header (document index
6) has first cell `"bob"`. -/
def bodyC4 : List Row :=
  [⟨true, false, false, false, "Printed by user", []⟩,
   ⟨false, false, false, false, "alice", ["alice"]⟩,
   ⟨false, true, false, false, "columns", ["Device"]⟩,
   ⟨false, false, false, false, "data",
     ["dev", "P1", "10.0.0.1", "x", "x", "x", "x", "5", "0", "0", "5"]⟩,
   ⟨true, false, false, false, "Printed by user", []⟩,
   ⟨false, false, false, false, "x", ["x"]⟩,
   ⟨false, false, false, false, "bob", ["bob"]⟩,
   ⟨false, true, false, false, "columns", ["Device"]⟩,
   ⟨false, false, false, false, "data",
     ["dev", "P2", "10.0.0.2", "x", "x", "x", "x", "7", "0", "0", "7"]⟩]

/-- The C4 document. -/
def docC4 : Doc := ⟨[bodyC4]⟩

/-- C4 is false on the code: the identity comes from
`gh.parentElement.querySelector('tr:nth-of-type(2)')` — the second `tr`
child of the parent — not from the second row following each group header.
In `docC4` the row at index 4 is a qualifying group header and the row two
positions later has first cell `"bob"`, yet the parser files both sections
under `"alice"` and produces no `"bob"` entry at all. -/
theorem C4_counterexample :
    (docC4.allRows.get? 4).map qualifiesGH = some true
    ∧ (docC4.allRows.get? 6).map (fun r => r.cells.headD "") = some "bob"
    ∧ (parseReportHtmlUsers docC4).map Prod.fst = ["alice"]
    ∧ "bob" ∉ (parseReportHtmlUsers docC4).map Prod.fst := by
  refine ⟨by decide, by decide, by decide, by decide⟩

/-- C4 amended: every user identity the parser produces is `bodyUsername`
of some parent element that contains a qualifying group header — the text
of the first data cell of the *second `tr` child of the group header's
parent* (`"Unknown User"` when absent); all group headers sharing a parent
therefore share one identity. -/
theorem C4_amended (d : Doc) :
    ∀ k ∈ (parseReportHtmlUsers d).map Prod.fst,
      ∃ b ∈ d.bodies, b.any qualifiesGH = true ∧ k = bodyUsername b := by
  intro k hk
  rcases parseBodiesAux_keys d.bodies [] k hk with h' | h'
  · simp at h'
  · exact h'

/-- Witness for the amended C4 at `docC4`. -/
theorem C4_amended_witness :
    bodyC4.any qualifiesGH = true ∧ "alice" = bodyUsername bodyC4 := by
  obtain ⟨b, hb, hq, hk⟩ := C4_amended docC4 "alice" (by decide)
  have hb' : b = bodyC4 := List.mem_singleton.mp hb
  rw [hb'] at hq hk
  exact ⟨hq, hk⟩

/-! ### Claim C5 -/

theorem setAgg_mem (agg : AggMap) (k : String) (v : UserDataA)
    (e : String × UserDataA) (h : e ∈ setAgg agg k v) : e = (k, v) ∨ e ∈ agg := by
  induction agg with
  | nil => simp only [setAgg, List.mem_singleton] at h; exact Or.inl h
  | cons f rest ih =>
      obtain ⟨k', v'⟩ := f
      simp only [setAgg] at h
      by_cases hk : k' = k
      · rw [if_pos hk] at h
        rcases List.mem_cons.mp h with h' | h'
        · subst hk; exact Or.inl h'
        · exact Or.inr (List.mem_cons_of_mem _ h')
      · rw [if_neg hk] at h
        rcases List.mem_cons.mp h with h' | h'
        · exact Or.inr (by rw [h']; exact List.mem_cons_self ..)
        · rcases ih h' with h'' | h''
          · exact Or.inl h''
          · exact Or.inr (List.mem_cons_of_mem _ h'')

theorem setAgg_keys (agg : AggMap) (key : String) (v : UserDataA) (k : String)
    (h : k ∈ (setAgg agg key v).map Prod.fst) :
    k ∈ agg.map Prod.fst ∨ k = key := by
  obtain ⟨e, he, hk⟩ := List.mem_map.mp h
  rcases setAgg_mem agg key v e he with h' | h'
  · right; rw [← hk, h']
  · left; exact List.mem_map.mpr ⟨e, h', hk⟩

theorem lookupAgg_setAgg_self (agg : AggMap) (k : String) (v : UserDataA) :
    lookupAgg (setAgg agg k v) k = some v := by
  induction agg with
  | nil => simp [setAgg, lookupAgg]
  | cons f rest ih =>
      obtain ⟨k', w⟩ := f
      simp only [setAgg]
      by_cases hk : k' = k
      · rw [if_pos hk]
        simp [lookupAgg, hk]
      · rw [if_neg hk]
        simp [lookupAgg, hk, ih]

theorem lookupAgg_setAgg_other (agg : AggMap) (k k' : String) (v : UserDataA)
    (hne : k' ≠ k) : lookupAgg (setAgg agg k v) k' = lookupAgg agg k' := by
  induction agg with
  | nil =>
      simp only [setAgg, lookupAgg]
      rw [if_neg (fun hc => hne hc.symm)]
  | cons f rest ih =>
      obtain ⟨k0, w⟩ := f
      simp only [setAgg]
      by_cases hk : k0 = k
      · rw [if_pos hk]
        simp only [lookupAgg]
        rw [if_neg (fun hc : k0 = k' => hne (hc ▸ hk ▸ rfl)),
            if_neg (fun hc : k0 = k' => hne (hc ▸ hk ▸ rfl))]
      · rw [if_neg hk]
        simp only [lookupAgg]
        by_cases h0 : k0 = k'
        · rw [if_pos h0, if_pos h0]
        · rw [if_neg h0, if_neg h0, ih]

theorem relevantPUs_all_excluded (s : List String) (pus : List PrinterUsageH)
    (hs : s ≠ []) (hout : ∀ pu ∈ pus, pu.ipHostname ∉ s) :
    relevantPUs (some s) pus = [] := by
  show (if s.isEmpty = true then pus
    else pus.filter (fun pu => s.contains pu.ipHostname)) = []
  rw [if_neg (by simp [List.isEmpty_iff, hs])]
  rw [List.filter_eq_nil_iff]
  intro pu hpu
  simp only [Bool.not_eq_true]
  rcases hcont : s.contains pu.ipHostname with _ | _
  · rfl
  · exact absurd (List.elem_iff.mp hcont) (hout pu hpu)

theorem processUser_absent (h : Heap) (agg : AggMap) (sel : Option (List String))
    (user : String) (pus : List PrinterUsageH) (u : String)
    (hu : u ∉ agg.map Prod.fst)
    (hcase : user = u → relevantPUs sel pus = []) :
    u ∉ (processUser h agg sel user pus).2.map Prod.fst := by
  unfold processUser
  by_cases he : (relevantPUs sel pus).isEmpty = true
  · rw [if_pos he]; exact hu
  · rw [if_neg he]
    intro hk
    rcases setAgg_keys _ _ _ u hk with h' | h'
    · exact hu h'
    · have : relevantPUs sel pus = [] := hcase h'.symm
      rw [this] at he
      exact he rfl

theorem processUsers_absent (sel : Option (List String))
    (us : List (String × List PrinterUsageH)) :
    ∀ (h : Heap) (agg : AggMap) (u : String),
      u ∉ agg.map Prod.fst →
      (∀ e ∈ us, e.1 = u → relevantPUs sel e.2 = []) →
      u ∉ (processUsers h agg sel us).2.map Prod.fst := by
  induction us with
  | nil => intro h agg u hu _; exact hu
  | cons e rest ih =>
      intro h agg u hu hout
      obtain ⟨user, pus⟩ := e
      exact ih _ _ u
        (processUser_absent h agg sel user pus u hu
          (fun hc => hout (user, pus) (List.mem_cons_self ..) hc))
        (fun e' he' => hout e' (List.mem_cons_of_mem _ he'))

theorem processPeriods_absent (sel : Option (List String))
    (ps : List ReportPeriodH) :
    ∀ (h : Heap) (agg : AggMap) (u : String),
      u ∉ agg.map Prod.fst →
      (∀ p ∈ ps, ∀ e ∈ p.users, e.1 = u → relevantPUs sel e.2 = []) →
      u ∉ (processPeriods h agg sel ps).2.map Prod.fst := by
  induction ps with
  | nil => intro h agg u hu _; exact hu
  | cons p rest ih =>
      intro h agg u hu hout
      exact ih _ _ u
        (processUsers_absent sel p.users h agg u hu
          (fun e he => hout p (List.mem_cons_self ..) e he))
        (fun p' hp' => hout p' (List.mem_cons_of_mem _ hp'))

theorem puKeyMatches_self (pu : PrinterUsageH) : puKeyMatches pu pu = true := by
  simp [puKeyMatches]

theorem processPU_any_mono (h : Heap) (ua : UserDataA) (q pu : PrinterUsageH)
    (hany : ua.printerUsage.any (fun p => puKeyMatches p pu) = true) :
    (processPU h ua q).2.printerUsage.any (fun p => puKeyMatches p pu) = true := by
  unfold processPU
  by_cases hex : ua.printerUsage.any (fun p => puKeyMatches p q) = true
  · rw [if_pos hex]; exact hany
  · rw [if_neg hex]
    simp only [List.any_append, hany, Bool.true_or]

theorem processPUs_any_mono (l : List PrinterUsageH) :
    ∀ (h : Heap) (ua : UserDataA) (pu : PrinterUsageH),
      ua.printerUsage.any (fun p => puKeyMatches p pu) = true →
      (processPUs h ua l).2.printerUsage.any (fun p => puKeyMatches p pu) = true := by
  induction l with
  | nil => intro h ua pu hany; exact hany
  | cons q rest ih =>
      intro h ua pu hany
      exact ih _ _ pu (processPU_any_mono h ua q pu hany)

theorem processPUs_adds (l : List PrinterUsageH) :
    ∀ (h : Heap) (ua : UserDataA) (pu : PrinterUsageH), pu ∈ l →
      (processPUs h ua l).2.printerUsage.any (fun p => puKeyMatches p pu) = true := by
  induction l with
  | nil => intro h ua pu hpu; simp at hpu
  | cons q rest ih =>
      intro h ua pu hpu
      rcases List.mem_cons.mp hpu with hq | hq
      · subst hq
        have hstep : processPUs h ua (pu :: rest)
            = processPUs (processPU h ua pu).1 (processPU h ua pu).2 rest := rfl
        rw [hstep]
        apply processPUs_any_mono
        unfold processPU
        by_cases hex : ua.printerUsage.any (fun p => puKeyMatches p pu) = true
        · rw [if_pos hex]; exact hex
        · rw [if_neg hex]
          simp [List.any_append, puKeyMatches_self]
      · exact ih _ _ pu hq

/-- Presence of an aggregate entry for user `u` covering the printer key of
`pu`, observable through the JS object reads the UI performs. -/
def foundIn (agg : AggMap) (u : String) (pu : PrinterUsageH) : Prop :=
  ∃ ua, lookupAgg agg u = some ua
    ∧ ua.printerUsage.any (fun p => puKeyMatches p pu) = true

theorem processUser_found_pres (h : Heap) (agg : AggMap)
    (sel : Option (List String)) (user : String) (pus : List PrinterUsageH)
    (u : String) (pu : PrinterUsageH) (hf : foundIn agg u pu) :
    foundIn (processUser h agg sel user pus).2 u pu := by
  obtain ⟨ua, hl, hany⟩ := hf
  unfold processUser
  by_cases he : (relevantPUs sel pus).isEmpty = true
  · rw [if_pos he]; exact ⟨ua, hl, hany⟩
  · rw [if_neg he]
    by_cases hk : user = u
    · subst hk
      rw [hl]
      refine ⟨_, lookupAgg_setAgg_self .., ?_⟩
      simp only [Option.getD_some]
      exact processPUs_any_mono _ h ua pu hany
    · refine ⟨ua, ?_, hany⟩
      rw [lookupAgg_setAgg_other _ _ _ _ (fun hc => hk hc.symm)]
      exact hl

theorem processUser_found_est (h : Heap) (agg : AggMap)
    (sel : Option (List String)) (user : String) (pus : List PrinterUsageH)
    (pu : PrinterUsageH) (hid : relevantPUs sel pus = pus) (hpu : pu ∈ pus) :
    foundIn (processUser h agg sel user pus).2 user pu := by
  unfold processUser
  rw [hid]
  have hne : pus.isEmpty = false := by
    cases pus with
    | nil => simp at hpu
    | cons a l => rfl
  rw [if_neg (by simp [hne])]
  exact ⟨_, lookupAgg_setAgg_self .., processPUs_adds pus h _ pu hpu⟩

theorem processUsers_found_pres (sel : Option (List String))
    (us : List (String × List PrinterUsageH)) :
    ∀ (h : Heap) (agg : AggMap) (u : String) (pu : PrinterUsageH),
      foundIn agg u pu → foundIn (processUsers h agg sel us).2 u pu := by
  induction us with
  | nil => intro h agg u pu hf; exact hf
  | cons e rest ih =>
      intro h agg u pu hf
      obtain ⟨user, pus⟩ := e
      exact ih _ _ u pu (processUser_found_pres h agg sel user pus u pu hf)

theorem processUsers_found_est (sel : Option (List String))
    (us : List (String × List PrinterUsageH))
    (hid : ∀ l, relevantPUs sel l = l) :
    ∀ (h : Heap) (agg : AggMap) (e : String × List PrinterUsageH)
      (pu : PrinterUsageH), e ∈ us → pu ∈ e.2 →
      foundIn (processUsers h agg sel us).2 e.1 pu := by
  induction us with
  | nil => intro h agg e pu he _; simp at he
  | cons f rest ih =>
      intro h agg e pu he hpu
      obtain ⟨user, pus⟩ := f
      rcases List.mem_cons.mp he with hf | hf
      · rw [hf] at hpu ⊢
        have hstep : processUsers h agg sel ((user, pus) :: rest)
            = processUsers (processUser h agg sel user pus).1
                (processUser h agg sel user pus).2 sel rest := rfl
        rw [hstep]
        exact processUsers_found_pres sel rest _ _ (user, pus).1 pu
          (processUser_found_est h agg sel user pus pu (hid pus) hpu)
      · exact ih _ _ e pu hf hpu

theorem processPeriods_found_pres (sel : Option (List String))
    (ps : List ReportPeriodH) :
    ∀ (h : Heap) (agg : AggMap) (u : String) (pu : PrinterUsageH),
      foundIn agg u pu → foundIn (processPeriods h agg sel ps).2 u pu := by
  induction ps with
  | nil => intro h agg u pu hf; exact hf
  | cons p rest ih =>
      intro h agg u pu hf
      exact ih _ _ u pu (processUsers_found_pres sel p.users h agg u pu hf)

theorem processPeriods_found_est (sel : Option (List String))
    (ps : List ReportPeriodH) (hid : ∀ l, relevantPUs sel l = l) :
    ∀ (h : Heap) (agg : AggMap) (p : ReportPeriodH)
      (e : String × List PrinterUsageH) (pu : PrinterUsageH),
      p ∈ ps → e ∈ p.users → pu ∈ e.2 →
      foundIn (processPeriods h agg sel ps).2 e.1 pu := by
  induction ps with
  | nil => intro h agg p e pu hp _ _; simp at hp
  | cons q rest ih =>
      intro h agg p e pu hp he hpu
      rcases List.mem_cons.mp hp with hq | hq
      · subst hq
        exact processPeriods_found_pres sel rest _ _ e.1 pu
          (processUsers_found_est sel p.users hid h agg e pu he hpu)
      · exact ih _ _ p e pu hq he hpu

/-- C5: with a non-empty printer filter, a user whose printer-usage entries
all name filtered-out printers (in every period) does not appear in the
aggregate output at all; with an absent or empty filter nothing is filtered
(`relevantPrinterUsage` is the full list) and every printer-usage entry of
every user of every period is represented in the output under its user, at
its `(ipHostname, ipAddress)` key. -/
theorem C5_printer_filter :
    (∀ (h : Heap) (ps : List ReportPeriodH) (s : List String) (u : String),
      s ≠ [] →
      (∀ p ∈ ps, ∀ e ∈ p.users, e.1 = u → ∀ pu ∈ e.2, pu.ipHostname ∉ s) →
      u ∉ (aggregateUsersForSelected h ps (some s)).2.map Prod.fst)
    ∧ (∀ l : List PrinterUsageH, relevantPUs none l = l
        ∧ relevantPUs (some []) l = l)
    ∧ (∀ (h : Heap) (ps : List ReportPeriodH) (sel : Option (List String)),
        (sel = none ∨ sel = some []) →
        ∀ p ∈ ps, ∀ e ∈ p.users, ∀ pu ∈ e.2,
          foundIn (aggregateUsersForSelected h ps sel).2 e.1 pu) := by
  refine ⟨?_, ?_, ?_⟩
  · intro h ps s u hs hout
    apply processPeriods_absent (some s) ps h [] u (by simp)
    intro p hp e he h1
    exact relevantPUs_all_excluded s e.2 hs (hout p hp e he h1)
  · intro l
    exact ⟨rfl, rfl⟩
  · intro h ps sel hsel p hp e he pu hpu
    have hid : ∀ l, relevantPUs sel l = l := by
      rcases hsel with h' | h' <;> subst h' <;> intro l <;> rfl
    exact processPeriods_found_est sel ps hid h [] p e pu hp he hpu

/-- Concrete heap for the C5 witness. -/
def heapC5 : Heap :=
  fun r => if r = 0 then ⟨4, 0, 0, 0, 0, 0, 0, 0, 0, 0, 0, 0, 0⟩ else Totals.zero

/-- Concrete period for the C5 witness: user `"v"` printed only on printer
`"P"`. -/
def periodsC5 : List ReportPeriodH := [⟨[("v", [⟨"dev", "P", "ip", 0⟩])]⟩]

/-- The printer-usage entry of `"v"` in `periodsC5`. -/
def puC5 : PrinterUsageH := ⟨"dev", "P", "ip", 0⟩

/-- Witness for C5: filtering on `["Q"]` makes `"v"` disappear entirely,
while the unfiltered aggregation carries an entry for `"v"` whose
printer-usage list covers `("P", "ip")`. -/
theorem C5_printer_filter_witness :
    "v" ∉ (aggregateUsersForSelected heapC5 periodsC5 (some ["Q"])).2.map Prod.fst
    ∧ ((lookupAgg (aggregateUsersForSelected heapC5 periodsC5 none).2 "v").map
        (fun ua => ua.printerUsage.any (fun p => puKeyMatches p puC5)))
      = some true := by
  constructor
  · exact C5_printer_filter.1 heapC5 periodsC5 ["Q"] "v" (by decide) (by decide)
  · obtain ⟨ua, hl, hany⟩ := C5_printer_filter.2.2 heapC5 periodsC5 none
      (Or.inl rfl) (periodsC5.headD ⟨[]⟩) (by decide)
      (("v", [puC5])) (by decide) puC5 (by decide)
    rw [hl]
    simp [hany]

/-! ### Claim C6 -/

theorem lookupUser_setUser_self (m : UsersMap) (k : String) (v : UserData) :
    lookupUser (setUser m k v) k = some v := by
  induction m with
  | nil => simp [setUser, lookupUser]
  | cons f rest ih =>
      obtain ⟨k', w⟩ := f
      simp only [setUser]
      by_cases hk : k' = k
      · rw [if_pos hk]
        simp [lookupUser, hk]
      · rw [if_neg hk]
        simp [lookupUser, hk, ih]

theorem lookupUser_setUser_other (m : UsersMap) (k k' : String) (v : UserData)
    (hne : k' ≠ k) : lookupUser (setUser m k v) k' = lookupUser m k' := by
  induction m with
  | nil =>
      simp only [setUser, lookupUser]
      rw [if_neg (fun hc => hne hc.symm)]
  | cons f rest ih =>
      obtain ⟨k0, w⟩ := f
      simp only [setUser]
      by_cases hk : k0 = k
      · rw [if_pos hk]
        simp only [lookupUser]
        rw [if_neg (fun hc : k0 = k' => hne (hc ▸ hk ▸ rfl)),
            if_neg (fun hc : k0 = k' => hne (hc ▸ hk ▸ rfl))]
      · rw [if_neg hk]
        simp only [lookupUser]
        by_cases h0 : k0 = k'
        · rw [if_pos h0, if_pos h0]
        · rw [if_neg h0, if_neg h0, ih]

theorem lookupUser_removeUser_self (m : UsersMap) (k : String) :
    lookupUser (removeUser m k) k = none := by
  induction m with
  | nil => rfl
  | cons f rest ih =>
      obtain ⟨k', w⟩ := f
      simp only [removeUser]
      by_cases hk : k' = k
      · rw [if_pos hk]; exact ih
      · rw [if_neg hk]
        simp only [lookupUser]
        rw [if_neg hk]
        exact ih

theorem lookupUser_removeUser_other (m : UsersMap) (k k' : String)
    (hne : k' ≠ k) : lookupUser (removeUser m k) k' = lookupUser m k' := by
  induction m with
  | nil => rfl
  | cons f rest ih =>
      obtain ⟨k0, w⟩ := f
      simp only [removeUser]
      by_cases hk : k0 = k
      · rw [if_pos hk]
        simp only [lookupUser]
        rw [if_neg (fun hc : k0 = k' => hne (hc ▸ hk ▸ rfl))]
        exact ih
      · rw [if_neg hk]
        simp only [lookupUser]
        by_cases h0 : k0 = k'
        · rw [if_pos h0, if_pos h0]
        · rw [if_neg h0, if_neg h0, ih]

/-- Concrete user data for the C6 counterexample. -/
def udC6bad : UserData :=
  ⟨⟨1, 0, 0, 1, 0, 0, 0, 0, 0, 0, 0, 0, 0⟩,
   [⟨"dev", "P", "ip", ⟨1, 0, 0, 1, 0, 0, 0, 0, 0, 0, 0, 0, 0⟩⟩]⟩

/-- A period whose only user identity is the empty string — such
identities are reachable, because the parser maps an empty first data cell
to the empty-string user name. -/
def periodC6bad : ReportPeriod :=
  ⟨"id", "f.html", none, none, none, "lbl", [("", udC6bad)], Totals.zero⟩

/-- C6 is false on the code as stated: `updateUserName` begins with
`if (!editingUser) return`, and the empty string is falsy in JS, so a
rename of the (reachable) empty-string identity to a trimmed non-empty
name changes no period: the old key is not removed and nothing is moved. -/
theorem C6_counterexample :
    (lookupUser periodC6bad.users "").isSome = true
    ∧ updateUserNamePeriods "" "bob" [periodC6bad] = [periodC6bad]
    ∧ (lookupUser
        (((updateUserNamePeriods "" "bob" [periodC6bad]).headD
            periodC6bad).users) "").isSome = true := by
  refine ⟨by decide, by decide, by decide⟩

/-- C6 amended: restricted to a non-empty old identity (the JS falsy guard
excludes the empty string), renaming behaves as claimed: a whitespace-only
new name changes nothing; a new name equal to the old changes nothing
(remove-then-reinsert of the same data); otherwise, in every period
containing the old identity the old key is gone and the data lands under
the trimmed new name — merged by field-wise counter sum and `printerUsage`
concatenation when the new identity already existed, moved unchanged
otherwise — while every other identity is untouched, and periods without
the old identity are returned as they are. -/
theorem C6_rename_merge (old newName : String) (ps : List ReportPeriod)
    (hold : old ≠ "") :
    (jsTrim newName = "" → updateUserNamePeriods old newName ps = ps)
    ∧ (jsTrim newName = old → updateUserNamePeriods old newName ps = ps)
    ∧ (jsTrim newName ≠ "" → jsTrim newName ≠ old →
        ∀ p ∈ ps, ∃ q ∈ updateUserNamePeriods old newName ps,
          (lookupUser p.users old = none → q = p)
          ∧ (∀ d, lookupUser p.users old = some d →
              lookupUser q.users old = none
              ∧ (∀ cur, lookupUser p.users (jsTrim newName) = some cur →
                  lookupUser q.users (jsTrim newName)
                    = some ⟨cur.totals.add d.totals,
                        cur.printerUsage ++ d.printerUsage⟩)
              ∧ (lookupUser p.users (jsTrim newName) = none →
                  lookupUser q.users (jsTrim newName) = some d)
              ∧ (∀ k, k ≠ old → k ≠ jsTrim newName →
                  lookupUser q.users k = lookupUser p.users k))) := by
  refine ⟨?_, ?_, ?_⟩
  · intro htr
    unfold updateUserNamePeriods
    rw [if_neg hold, if_pos htr]
  · intro htr
    unfold updateUserNamePeriods
    rw [if_neg hold]
    by_cases he : jsTrim newName = ""
    · rw [if_pos he]
    · rw [if_neg he, if_neg (by simp [htr])]
  · intro htr hne p hp
    unfold updateUserNamePeriods
    rw [if_neg hold, if_neg htr, if_pos (by simp [hne])]
    refine ⟨_, List.mem_map_of_mem _ hp, ?_, ?_⟩
    · intro hnone
      rw [hnone]
    · intro d hd
      rw [hd]
      cases hcur : lookupUser (removeUser p.users old) (jsTrim newName) with
      | none =>
          simp only
          rw [hcur]
          refine ⟨?_, ?_, ?_, ?_⟩
          · simp only
            rw [lookupUser_setUser_other _ _ _ _ (fun hc => hne hc.symm),
              lookupUser_removeUser_self]
          · intro cur hcur'
            rw [lookupUser_removeUser_other _ _ _ hne] at hcur
            rw [hcur'] at hcur
            exact absurd hcur (by simp)
          · intro _
            simp only
            rw [lookupUser_setUser_self]
          · intro k hko hkt
            simp only
            rw [lookupUser_setUser_other _ _ _ _ hkt,
              lookupUser_removeUser_other _ _ _ hko]
      | some cur0 =>
          simp only
          rw [hcur]
          refine ⟨?_, ?_, ?_, ?_⟩
          · simp only
            rw [lookupUser_setUser_other _ _ _ _ (fun hc => hne hc.symm),
              lookupUser_removeUser_self]
          · intro cur hcur'
            rw [lookupUser_removeUser_other _ _ _ hne, hcur'] at hcur
            have hc0 : cur0 = cur := by
              injection hcur with h'
              exact h'.symm
            subst hc0
            simp only
            rw [lookupUser_setUser_self]
            rfl
          · intro hcur'
            rw [lookupUser_removeUser_other _ _ _ hne, hcur'] at hcur
            exact absurd hcur (by simp)
          · intro k hko hkt
            simp only
            rw [lookupUser_setUser_other _ _ _ _ hkt,
              lookupUser_removeUser_other _ _ _ hko]

/-- Existing `"John Doe"` data (mono 2) for the C6 witness. -/
def udJohnDoe : UserData :=
  ⟨⟨2, 0, 0, 2, 0, 0, 0, 0, 0, 0, 0, 0, 0⟩,
   [⟨"dev", "P1", "ip1", ⟨2, 0, 0, 2, 0, 0, 0, 0, 0, 0, 0, 0, 0⟩⟩]⟩

/-- Old `"jdoe"` data (mono 1) for the C6 witness. -/
def udJdoe : UserData :=
  ⟨⟨1, 0, 0, 1, 0, 0, 0, 0, 0, 0, 0, 0, 0⟩,
   [⟨"dev", "P2", "ip2", ⟨1, 0, 0, 1, 0, 0, 0, 0, 0, 0, 0, 0, 0⟩⟩]⟩

/-- Period containing both `"John Doe"` and `"jdoe"` for the C6 witness. -/
def periodC6 : ReportPeriod :=
  ⟨"id", "f.html", none, none, none, "lbl",
   [("John Doe", udJohnDoe), ("jdoe", udJdoe)], Totals.zero⟩

/-- Witness for the amended C6: renaming `"jdoe"` onto the existing
`"John Doe"` leaves a single entry whose counters are the field-wise sums
(mono 2 + 1) and whose `printerUsage` lists are concatenated. -/
theorem C6_rename_merge_witness :
    lookupUser
        (((updateUserNamePeriods "jdoe" "John Doe" [periodC6]).headD
            periodC6).users) "jdoe" = none
    ∧ lookupUser
        (((updateUserNamePeriods "jdoe" "John Doe" [periodC6]).headD
            periodC6).users) "John Doe"
      = some ⟨udJohnDoe.totals.add udJdoe.totals,
          udJohnDoe.printerUsage ++ udJdoe.printerUsage⟩ := by
  obtain ⟨q, hq, _, hfacts⟩ :=
    (C6_rename_merge "jdoe" "John Doe" [periodC6] (by decide)).2.2
      (by decide) (by decide) periodC6 (List.mem_singleton.mpr rfl)
  have hlist : updateUserNamePeriods "jdoe" "John Doe" [periodC6]
      = [(updateUserNamePeriods "jdoe" "John Doe" [periodC6]).headD periodC6] := by
    decide
  rw [hlist] at hq
  have hq' := List.mem_singleton.mp hq
  obtain ⟨hnone, hsome, _, _⟩ := hfacts udJdoe (by decide)
  rw [hq'] at hnone hsome
  exact ⟨hnone, hsome udJohnDoe (by decide)⟩

/-! ### Claim C7 -/

theorem startFold_as_filterMap (ps : List ReportPeriod) :
    ∀ acc,
      ps.foldl
        (fun acc p =>
          match p.rangeStart with
          | none => acc
          | some v => minStartStep acc v) acc
      = (ps.filterMap (fun p => p.rangeStart)).foldl minStartStep acc := by
  induction ps with
  | nil => intro acc; rfl
  | cons p rest ih =>
      intro acc
      cases hv : p.rangeStart with
      | none => simp [List.foldl_cons, List.filterMap_cons, hv, ih]
      | some v => simp [List.foldl_cons, List.filterMap_cons, hv, ih]

theorem endFold_as_filterMap (ps : List ReportPeriod) :
    ∀ acc,
      ps.foldl
        (fun acc p =>
          match p.rangeEnd with
          | none => acc
          | some v => maxEndStep acc v) acc
      = (ps.filterMap (fun p => p.rangeEnd)).foldl maxEndStep acc := by
  induction ps with
  | nil => intro acc; rfl
  | cons p rest ih =>
      intro acc
      cases hv : p.rangeEnd with
      | none => simp [List.foldl_cons, List.filterMap_cons, hv, ih]
      | some v => simp [List.foldl_cons, List.filterMap_cons, hv, ih]

theorem minStartStep_ne_none (acc : Option Int) (v : Int) :
    minStartStep acc v ≠ none := by
  cases acc with
  | none => simp [minStartStep]
  | some s =>
      simp only [minStartStep]
      by_cases hv : v < s
      · rw [if_pos hv]; simp
      · rw [if_neg hv]; simp

theorem maxEndStep_ne_none (acc : Option Int) (v : Int) :
    maxEndStep acc v ≠ none := by
  cases acc with
  | none => simp [maxEndStep]
  | some e =>
      simp only [maxEndStep]
      by_cases hv : e < v
      · rw [if_pos hv]; simp
      · rw [if_neg hv]; simp

theorem minFold_none (l : List Int) :
    ∀ acc, (l.foldl minStartStep acc = none) ↔ (acc = none ∧ l = []) := by
  induction l with
  | nil =>
      intro acc
      constructor
      · intro h; exact ⟨h, rfl⟩
      · intro h; exact h.1
  | cons v rest ih =>
      intro acc
      constructor
      · intro h
        have := (ih (minStartStep acc v)).mp h
        exact absurd this.1 (minStartStep_ne_none acc v)
      · intro h
        exact absurd h.2 (by simp)

theorem maxFold_none (l : List Int) :
    ∀ acc, (l.foldl maxEndStep acc = none) ↔ (acc = none ∧ l = []) := by
  induction l with
  | nil =>
      intro acc
      constructor
      · intro h; exact ⟨h, rfl⟩
      · intro h; exact h.1
  | cons v rest ih =>
      intro acc
      constructor
      · intro h
        have := (ih (maxEndStep acc v)).mp h
        exact absurd this.1 (maxEndStep_ne_none acc v)
      · intro h
        exact absurd h.2 (by simp)

theorem minFold_spec (l : List Int) :
    ∀ acc t, l.foldl minStartStep acc = some t →
      (acc = some t ∨ t ∈ l)
      ∧ (∀ s, acc = some s → t ≤ s)
      ∧ (∀ x ∈ l, t ≤ x) := by
  induction l with
  | nil =>
      intro acc t h
      refine ⟨Or.inl h, ?_, by simp⟩
      intro s hs
      have h' : acc = some t := h
      rw [hs] at h'
      have := Option.some.inj h'
      omega
  | cons v rest ih =>
      intro acc t h
      obtain ⟨h1, h2, h3⟩ := ih (minStartStep acc v) t h
      cases acc with
      | none =>
          rw [show minStartStep none v = some v from rfl] at h1 h2
          refine ⟨?_, by simp, ?_⟩
          · rcases h1 with h' | h'
            · exact Or.inr (by rw [← Option.some.inj h']; exact List.mem_cons_self ..)
            · exact Or.inr (List.mem_cons_of_mem _ h')
          · intro x hx
            rcases List.mem_cons.mp hx with hx' | hx'
            · subst hx'
              exact h2 x rfl
            · exact h3 x hx'
      | some s0 =>
          by_cases hv : v < s0
          · rw [show minStartStep (some s0) v = some v from by
              simp [minStartStep, hv]] at h1 h2
            have htv : t ≤ v := h2 v rfl
            refine ⟨?_, ?_, ?_⟩
            · rcases h1 with h' | h'
              · exact Or.inr (by rw [← Option.some.inj h']; exact List.mem_cons_self ..)
              · exact Or.inr (List.mem_cons_of_mem _ h')
            · intro s hs
              have := Option.some.inj hs
              omega
            · intro x hx
              rcases List.mem_cons.mp hx with hx' | hx'
              · subst hx'
                exact htv
              · exact h3 x hx'
          · rw [show minStartStep (some s0) v = some s0 from by
              simp [minStartStep, hv]] at h1 h2
            have hts : t ≤ s0 := h2 s0 rfl
            refine ⟨?_, ?_, ?_⟩
            · rcases h1 with h' | h'
              · exact Or.inl h'
              · exact Or.inr (List.mem_cons_of_mem _ h')
            · intro s hs
              have := Option.some.inj hs
              omega
            · intro x hx
              rcases List.mem_cons.mp hx with hx' | hx'
              · subst hx'
                omega
              · exact h3 x hx'

theorem maxFold_spec (l : List Int) :
    ∀ acc t, l.foldl maxEndStep acc = some t →
      (acc = some t ∨ t ∈ l)
      ∧ (∀ s, acc = some s → s ≤ t)
      ∧ (∀ x ∈ l, x ≤ t) := by
  induction l with
  | nil =>
      intro acc t h
      refine ⟨Or.inl h, ?_, by simp⟩
      intro s hs
      have h' : acc = some t := h
      rw [hs] at h'
      have := Option.some.inj h'
      omega
  | cons v rest ih =>
      intro acc t h
      obtain ⟨h1, h2, h3⟩ := ih (maxEndStep acc v) t h
      cases acc with
      | none =>
          rw [show maxEndStep none v = some v from rfl] at h1 h2
          refine ⟨?_, by simp, ?_⟩
          · rcases h1 with h' | h'
            · exact Or.inr (by rw [← Option.some.inj h']; exact List.mem_cons_self ..)
            · exact Or.inr (List.mem_cons_of_mem _ h')
          · intro x hx
            rcases List.mem_cons.mp hx with hx' | hx'
            · subst hx'
              exact h2 x rfl
            · exact h3 x hx'
      | some e0 =>
          by_cases hv : e0 < v
          · rw [show maxEndStep (some e0) v = some v from by
              simp [maxEndStep, hv]] at h1 h2
            have htv : v ≤ t := h2 v rfl
            refine ⟨?_, ?_, ?_⟩
            · rcases h1 with h' | h'
              · exact Or.inr (by rw [← Option.some.inj h']; exact List.mem_cons_self ..)
              · exact Or.inr (List.mem_cons_of_mem _ h')
            · intro s hs
              have := Option.some.inj hs
              omega
            · intro x hx
              rcases List.mem_cons.mp hx with hx' | hx'
              · subst hx'
                exact htv
              · exact h3 x hx'
          · rw [show maxEndStep (some e0) v = some e0 from by
              simp [maxEndStep, hv]] at h1 h2
            have hts : e0 ≤ t := h2 e0 rfl
            refine ⟨?_, ?_, ?_⟩
            · rcases h1 with h' | h'
              · exact Or.inl h'
              · exact Or.inr (List.mem_cons_of_mem _ h')
            · intro s hs
              have := Option.some.inj hs
              omega
            · intro x hx
              rcases List.mem_cons.mp hx with hx' | hx'
              · subst hx'
                omega
              · exact h3 x hx'

/-- Period with only a `rangeStart` for the C7 counterexample. -/
def periodC7a : ReportPeriod :=
  ⟨"a", "a.html", none, some 5, none, "a", [], Totals.zero⟩

/-- Period with only a `rangeEnd` for the C7 counterexample. -/
def periodC7b : ReportPeriod :=
  ⟨"b", "b.html", none, none, some 9, "b", [], Totals.zero⟩

/-- C7 is false on the code as stated: the overall range is present as soon
as some period has a `rangeStart` and some — possibly different — period
has a `rangeEnd`.  With one start-only and one end-only period, no period
has both ends, yet `overallRange` is `some (5, 9)`. -/
theorem C7_counterexample :
    (periodC7a.rangeStart.isSome && periodC7a.rangeEnd.isSome) = false
    ∧ (periodC7b.rangeStart.isSome && periodC7b.rangeEnd.isSome) = false
    ∧ (computeAggregated [periodC7a, periodC7b]).overallRange = some (5, 9) := by
  refine ⟨by decide, by decide, by decide⟩

/-- C7 amended: `overallRange.start` is the minimum of all present
`rangeStart` values and `overallRange.end` the maximum of all present
`rangeEnd` values; the range is absent exactly when no period has a
`rangeStart` or no period has a `rangeEnd` (not: when no period has both
ends). -/
theorem insertByKey_perm (x : ReportPeriod) (l : List ReportPeriod) :
    List.Perm (insertByKey x l) (x :: l) := by
  induction l with
  | nil => exact List.Perm.refl _
  | cons y ys ih =>
      simp only [insertByKey]
      by_cases hk : periodSortKey y < periodSortKey x
      · rw [if_pos hk]
        exact (ih.cons y).trans (List.Perm.swap x y ys)
      · rw [if_neg hk]

theorem insertionSortPeriods_perm (l : List ReportPeriod) :
    List.Perm (insertionSortPeriods l) l := by
  induction l with
  | nil => exact List.Perm.refl _
  | cons x xs ih =>
      simp only [insertionSortPeriods]
      exact (insertByKey_perm x (insertionSortPeriods xs)).trans (ih.cons x)

theorem C7_amended (ps : List ReportPeriod) :
    ((computeAggregated ps).overallRange = none ↔
      (ps.filterMap (fun p => p.rangeStart) = []
       ∨ ps.filterMap (fun p => p.rangeEnd) = []))
    ∧ (∀ s e, (computeAggregated ps).overallRange = some (s, e) →
        s ∈ ps.filterMap (fun p => p.rangeStart)
        ∧ (∀ x ∈ ps.filterMap (fun p => p.rangeStart), s ≤ x)
        ∧ e ∈ ps.filterMap (fun p => p.rangeEnd)
        ∧ (∀ x ∈ ps.filterMap (fun p => p.rangeEnd), x ≤ e)) := by
  have hperm := insertionSortPeriods_perm ps
  have hpermS := hperm.filterMap (fun p => p.rangeStart)
  have hpermE := hperm.filterMap (fun p => p.rangeEnd)
  have hrange : (computeAggregated ps).overallRange
      = (match overallStartFold (insertionSortPeriods ps),
          overallEndFold (insertionSortPeriods ps) with
        | some s, some e => some (s, e)
        | _, _ => none) := rfl
  have hSnone : overallStartFold (insertionSortPeriods ps) = none
      ↔ ps.filterMap (fun p => p.rangeStart) = [] := by
    show List.foldl _ none _ = none ↔ _
    rw [startFold_as_filterMap, minFold_none]
    constructor
    · intro h
      rw [h.2] at hpermS
      exact hpermS.symm.eq_nil
    · intro h
      refine ⟨rfl, ?_⟩
      rw [h] at hpermS
      exact hpermS.eq_nil
  have hEnone : overallEndFold (insertionSortPeriods ps) = none
      ↔ ps.filterMap (fun p => p.rangeEnd) = [] := by
    show List.foldl _ none _ = none ↔ _
    rw [endFold_as_filterMap, maxFold_none]
    constructor
    · intro h
      rw [h.2] at hpermE
      exact hpermE.symm.eq_nil
    · intro h
      refine ⟨rfl, ?_⟩
      rw [h] at hpermE
      exact hpermE.eq_nil
  constructor
  · rw [hrange]
    constructor
    · intro h
      cases hs0 : overallStartFold (insertionSortPeriods ps) with
      | none => exact Or.inl (hSnone.mp hs0)
      | some s =>
          cases he0 : overallEndFold (insertionSortPeriods ps) with
          | none => exact Or.inr (hEnone.mp he0)
          | some e =>
              rw [hs0, he0] at h
              exact absurd h (by simp)
    · intro h
      rcases h with h | h
      · rw [hSnone.mpr h]
      · rw [hEnone.mpr h]
        cases overallStartFold (insertionSortPeriods ps) <;> rfl
  · intro s e h
    rw [hrange] at h
    cases hs0 : overallStartFold (insertionSortPeriods ps) with
    | none =>
        rw [hs0] at h
        cases overallEndFold (insertionSortPeriods ps) <;> simp at h
    | some s' =>
        cases he0 : overallEndFold (insertionSortPeriods ps) with
        | none =>
            rw [hs0, he0] at h
            exact absurd h (by simp)
        | some e' =>
            rw [hs0, he0] at h
            have hinj := Option.some.inj h
            have hs' : s' = s := congrArg Prod.fst hinj
            have he' : e' = e := congrArg Prod.snd hinj
            rw [hs'] at hs0
            rw [he'] at he0
            have hsf : (List.filterMap (fun p => p.rangeStart)
                (insertionSortPeriods ps)).foldl minStartStep none = some s := by
              rw [← startFold_as_filterMap]
              exact hs0
            have hef : (List.filterMap (fun p => p.rangeEnd)
                (insertionSortPeriods ps)).foldl maxEndStep none = some e := by
              rw [← endFold_as_filterMap]
              exact he0
            obtain ⟨hm1, _, hm3⟩ := minFold_spec _ none s hsf
            obtain ⟨hx1, _, hx3⟩ := maxFold_spec _ none e hef
            refine ⟨?_, ?_, ?_, ?_⟩
            · rcases hm1 with h' | h'
              · exact absurd h' (by simp)
              · exact hpermS.mem_iff.mp h'
            · intro x hx
              exact hm3 x (hpermS.mem_iff.mpr hx)
            · rcases hx1 with h' | h'
              · exact absurd h' (by simp)
              · exact hpermE.mem_iff.mp h'
            · intro x hx
              exact hx3 x (hpermE.mem_iff.mpr hx)


/-- Period with both ends for the C7 witness. -/
def periodC7w : ReportPeriod :=
  ⟨"w", "w.html", none, some 5, some 9, "w", [], Totals.zero⟩

/-- Witness for the amended C7 at a one-period input with range 5..9. -/
theorem C7_amended_witness :
    (5 : Int) ∈ [periodC7w].filterMap (fun p => p.rangeStart)
    ∧ (9 : Int) ∈ [periodC7w].filterMap (fun p => p.rangeEnd) :=
  ⟨((C7_amended [periodC7w]).2 5 9 (by decide)).1,
   ((C7_amended [periodC7w]).2 5 9 (by decide)).2.2.1⟩

/-! ### Claim C8 -/

theorem totalsOk_false_of_neg (t : Totals)
    (h : t.mono < 0 ∨ t.color < 0 ∨ t.blank < 0 ∨ t.total < 0
      ∨ t.adobePdf < 0 ∨ t.copy < 0 ∨ t.msExcel < 0 ∨ t.msPowerPoint < 0
      ∨ t.msWord < 0 ∨ t.simplex < 0 ∨ t.duplex < 0
      ∨ t.otherApplication < 0 ∨ t.print < 0) :
    totalsOk t = false := by
  simp only [totalsOk, Bool.and_eq_false_iff, decide_eq_false_iff_not, not_le]
  omega

/-- C8: a column-header-armed data row (more than 10 cells, not a totals
row) whose decoded counters include a negative value is dropped whole: the
scan step leaves the user's data untouched and continues with the remaining
rows, so sibling valid rows are still counted; the parse itself is a total
function and cannot fail. -/
theorem C8_malformed_row_dropped (ud : UserData) (r : Row) (rest : List Row)
    (hg : r.isGroupHdr = false) (hc : r.isColumnHdr = false)
    (hh : r.hasHr = false) (hlen : 10 < r.cells.length)
    (ht : r.isTotalsRow = false)
    (htc : containsTotalCI (r.cells.headD "") = false)
    (hneg : (decodeRowTotals r.cells).mono < 0
      ∨ (decodeRowTotals r.cells).color < 0
      ∨ (decodeRowTotals r.cells).blank < 0
      ∨ (decodeRowTotals r.cells).total < 0
      ∨ (decodeRowTotals r.cells).adobePdf < 0
      ∨ (decodeRowTotals r.cells).copy < 0
      ∨ (decodeRowTotals r.cells).msExcel < 0
      ∨ (decodeRowTotals r.cells).msPowerPoint < 0
      ∨ (decodeRowTotals r.cells).msWord < 0
      ∨ (decodeRowTotals r.cells).simplex < 0
      ∨ (decodeRowTotals r.cells).duplex < 0
      ∨ (decodeRowTotals r.cells).otherApplication < 0
      ∨ (decodeRowTotals r.cells).print < 0) :
    scanSection ud true (r :: rest) = scanSection ud true rest := by
  have hok : totalsOk (decodeRowTotals r.cells) = false :=
    totalsOk_false_of_neg _ hneg
  simp only [scanSection]
  rw [if_neg (by simp [hg]), if_neg (by simp [hc]), if_neg (by simp [hh]),
    if_pos (by simp [hlen]),
    if_neg (by
      simp only [Bool.or_eq_true, not_or, Bool.not_eq_true]
      exact ⟨ht, htc⟩)]
  unfold processRow
  rw [if_neg (by simp [hok])]

/-- Data row with a negative mono cell for the C8 witness. -/
def rowC8 : Row :=
  ⟨false, false, false, false, "data",
   ["dev", "P", "10.0.0.1", "x", "x", "x", "x", "-1", "0", "0", "0"]⟩

/-- Witness for C8: the scan step over the negative row is the identity. -/
theorem C8_malformed_row_dropped_witness :
    scanSection emptyUserData true [rowC8] = scanSection emptyUserData true [] :=
  C8_malformed_row_dropped emptyUserData rowC8 [] (by decide) (by decide)
    (by decide) (by decide) (by decide) (by decide) (Or.inl (by decide))

/-! ### Claim C9 -/

/-- C9: without a class-tagged totals row, `grandTotals` is the field-wise
sum of every user's totals (all zeros when the user map is empty); with
one, `grandTotals` is decoded from the first such row with the same fixed
column-index mapping as data rows (identical to the data-row decoder on
any row wide enough to be retained as a data row). -/
theorem C9_grand_totals :
    (∀ d : Doc, (∀ r ∈ d.allRows, r.isTotalsRow = false) →
        parseReportHtmlGrand d = sumUsersTotals (parseReportHtmlUsers d))
    ∧ (∀ d : Doc, (∀ r ∈ d.allRows, r.isTotalsRow = false) →
        parseReportHtmlUsers d = [] → parseReportHtmlGrand d = Totals.zero)
    ∧ (∀ (d : Doc) (r : Row),
        d.allRows.find? (fun r => r.isTotalsRow) = some r →
        parseReportHtmlGrand d = decodeGrandRow r.cells)
    ∧ (∀ cells : List String, 10 < cells.length →
        decodeGrandRow cells = decodeRowTotals cells) := by
  refine ⟨?_, ?_, ?_, ?_⟩
  · intro d hno
    unfold parseReportHtmlGrand
    rw [List.find?_eq_none.mpr (fun r hr => by simp [hno r hr])]
  · intro d hno hempty
    unfold parseReportHtmlGrand
    rw [List.find?_eq_none.mpr (fun r hr => by simp [hno r hr]), hempty]
    rfl
  · intro d r hfind
    unfold parseReportHtmlGrand
    rw [hfind]
  · intro cells hlen
    have h10 : ∀ d1 d2 : String, cellD cells 10 d1 = cellD cells 10 d2 := by
      intro d1 d2
      unfold cellD
      rw [List.getD_eq_getElem _ d1 hlen, List.getD_eq_getElem _ d2 hlen]
    simp only [decodeGrandRow, decodeRowTotals]
    rw [h10 "0" (toString (parseIntSafe (cellD cells 7 "0")
      + parseIntSafe (cellD cells 8 "0") + parseIntSafe (cellD cells 9 "0")))]

/-- Document without a totals row for the C9 witness. -/
def docC9 : Doc :=
  ⟨[[⟨true, false, false, false, "Printed by user", []⟩,
     ⟨false, false, false, false, "alice", ["alice"]⟩,
     ⟨false, true, false, false, "columns", ["Device"]⟩,
     ⟨false, false, false, false, "data",
       ["dev", "P1", "10.0.0.1", "x", "x", "x", "x", "5", "2", "1", "8"]⟩]]⟩

/-- A class-tagged grand-totals row for the C9 witness. -/
def rowC9t : Row :=
  ⟨false, false, true, false, "Total",
   ["Total", "", "", "x", "x", "x", "x", "9", "4", "2", "15"]⟩

/-- Document with a totals row for the C9 witness. -/
def docC9t : Doc :=
  ⟨[[⟨true, false, false, false, "Printed by user", []⟩,
     ⟨false, false, false, false, "alice", ["alice"]⟩,
     ⟨false, true, false, false, "columns", ["Device"]⟩,
     ⟨false, false, false, false, "data",
       ["dev", "P1", "10.0.0.1", "x", "x", "x", "x", "5", "2", "1", "8"]⟩,
     rowC9t]]⟩

/-- Witness for C9 at concrete documents. -/
theorem C9_grand_totals_witness :
    parseReportHtmlGrand docC9 = sumUsersTotals (parseReportHtmlUsers docC9)
    ∧ parseReportHtmlGrand docC9t = decodeGrandRow rowC9t.cells
    ∧ decodeGrandRow (rowC8.cells) = decodeRowTotals (rowC8.cells) :=
  ⟨C9_grand_totals.1 docC9 (by decide),
   C9_grand_totals.2.2.1 docC9t rowC9t (by decide),
   C9_grand_totals.2.2.2 rowC8.cells (by decide)⟩

/-! ### Claim C10 -/

/-- Every `ReportPeriod` field other than the user map. -/
def nonUserFields (p : ReportPeriod) :
    String × String × Option Int × Option Int × Option Int × String × Totals :=
  (p.id, p.fileName, p.dateCreated, p.rangeStart, p.rangeEnd, p.periodLabel,
   p.grandTotals)

/-- User data for the C10 example period. -/
def udC10 : UserData :=
  ⟨⟨1, 0, 0, 1, 0, 0, 0, 0, 0, 0, 0, 0, 0⟩,
   [⟨"dev", "P", "ip", ⟨1, 0, 0, 1, 0, 0, 0, 0, 0, 0, 0, 0, 0⟩⟩]⟩

/-- Example period whose grand totals equal its single user's totals. -/
def periodC10 : ReportPeriod :=
  ⟨"id", "f.html", none, none, none, "lbl", [("a", udC10)],
   ⟨1, 0, 0, 1, 0, 0, 0, 0, 0, 0, 0, 0, 0⟩⟩

/-- C10: renaming and deleting user identities rewrite only the `users`
map of each period — id, fileName, dates, label and in particular
`grandTotals` are untouched — so after a delete, `grandTotals` can differ
from the field-wise sum of the remaining users' totals, as the concrete
example shows. -/
theorem C10_frame_effects :
    (∀ (old newName : String) (ps : List ReportPeriod),
        (updateUserNamePeriods old newName ps).map nonUserFields
          = ps.map nonUserFields)
    ∧ (∀ (sel : List String) (ps : List ReportPeriod),
        (deleteSelectedRowsPeriods sel ps).map nonUserFields
          = ps.map nonUserFields)
    ∧ ((deleteSelectedRowsPeriods ["a"] [periodC10]).map
          (fun p => p.grandTotals) = [periodC10.grandTotals]
        ∧ ((deleteSelectedRowsPeriods ["a"] [periodC10]).headD
              periodC10).grandTotals
          ≠ sumUsersTotals
              (((deleteSelectedRowsPeriods ["a"] [periodC10]).headD
                  periodC10).users)) := by
  refine ⟨?_, ?_, by decide, by decide⟩
  · intro old newName ps
    unfold updateUserNamePeriods
    by_cases h0 : old = ""
    · rw [if_pos h0]
    · rw [if_neg h0]
      by_cases h1 : jsTrim newName = ""
      · rw [if_pos h1]
      · rw [if_neg h1]
        by_cases h2 : jsTrim newName ≠ old
        · rw [if_pos h2, List.map_map]
          refine List.map_congr_left ?_
          intro p _
          simp only [Function.comp_apply]
          cases hl : lookupUser p.users old with
          | none => rfl
          | some d =>
              cases hl2 : lookupUser (removeUser p.users old) (jsTrim newName) with
              | none => rfl
              | some cur => rfl
        · rw [if_neg h2]
  · intro sel ps
    unfold deleteSelectedRowsPeriods
    rw [List.map_map]
    refine List.map_congr_left ?_
    intro p _
    simp only [Function.comp_apply]
    rfl
